import Mathlib

/-!
# Verification of `cmd/mandelbrot/main.go` (xyproto/mandel)

A shallow embedding of the escape-time kernel `mandelbrot`, of the row renderer
`renderRow`, of the render phase of `main`, and of the parts of Go's `image` and
`image/color` packages that they call.

* `float64` and `complex128` arithmetic is a parameter (`Arith`): the control flow of the
  program is verified for every interpretation of the arithmetic operations.  `float64` is
  the interpretation that the program runs with: IEEE 754 binary64, every operation rounded
  to nearest (ties to even), with infinities and NaN, and `cmplx.Abs` computed as
  `math.Hypot` does.  `exact K` is the idealised interpretation by exact arithmetic in an
  ordered field `K` (executable for `K = ℚ`); it is the arithmetic of the mathematical
  recurrence, not of the program.
* machine integers are `Int`/`Nat` with explicit reduction modulo `2^8` where the source
  converts to `uint8`.
* the goroutines started by `main` are modelled by a scheduler that interleaves the
  individual `img.Set` calls of the row tasks in an arbitrary order.
-/

namespace Mandel

/-! ## Constants of `main.go` (lines 13-19) -/

def width : Nat := 3840
def height : Nat := 2160
def xmin : Int := -2
def ymin : Int := -2
def xmax : Int := 2
def ymax : Int := 2
def maxIter : Nat := 1000

/-! ## Package `image/color` -/

/-- Go conversion `uint8(v)` of an integer value: reduction modulo `2^8`. -/
def uint8 (v : Int) : Nat := (v % 256).toNat

/-- Go struct `color.RGBA`: four `uint8` channels. -/
structure RGBA where
  R : Nat
  G : Nat
  B : Nat
  A : Nat
deriving DecidableEq, Repr

/-- Dynamic values of the interface `color.Color` that the program handles:
`color.Gray{Y}`, `color.Gray16{Y}` and `color.RGBA{R, G, B, A}`. Values of different
dynamic type are different interface values. -/
inductive Color where
  | Gray (Y : Nat)
  | Gray16 (Y : Nat)
  | RGBA (c : RGBA)
deriving DecidableEq, Repr

/-- Go variable `color.Black = Gray16{0}`. -/
def Black : Color := Color.Gray16 0

/-- Method `RGBA() (r, g, b, a uint32)` of `color.Gray`, `color.Gray16` and `color.RGBA`:
`Gray` and `RGBA` widen each 8-bit channel `y` to `y | y<<8`; `Gray16` returns `Y` as it
is; the gray colours are opaque (`a = 0xffff`). -/
def Color.toRGBA : Color → Nat × Nat × Nat × Nat
  | Color.Gray Y => (Y ||| (Y <<< 8), Y ||| (Y <<< 8), Y ||| (Y <<< 8), 0xffff)
  | Color.Gray16 Y => (Y, Y, Y, 0xffff)
  | Color.RGBA c => (c.R ||| (c.R <<< 8), c.G ||| (c.G <<< 8), c.B ||| (c.B <<< 8),
      c.A ||| (c.A <<< 8))

/-- Function `rgbaModel` behind `color.RGBAModel.Convert`: a `color.RGBA` is returned as it
is, any other colour `c` becomes `RGBA{uint8(r>>8), uint8(g>>8), uint8(b>>8), uint8(a>>8)}`
with `r, g, b, a := c.RGBA()`. -/
def rgbaModel : Color → RGBA
  | Color.RGBA c => c
  | c =>
    match c.toRGBA with
    | (r, g, b, a) => ⟨(r >>> 8) % 256, (g >>> 8) % 256, (b >>> 8) % 256, (a >>> 8) % 256⟩

/-! ## Arithmetic of `float64` and `complex128` -/

/-- The operations on `float64` (`F`) and `complex128` (`C`) that `main.go` uses.
`ofInt` is the conversion `float64(x)` of an `int` (and of an untyped integer constant),
`complex` the builtin `complex(re, im)`, `cmul` and `cadd` are `*` and `+` on `complex128`
and `absGt2 z` is the test `cmplx.Abs(z) > 2`. -/
structure Arith where
  F : Type
  C : Type
  ofInt : Int → F
  add : F → F → F
  mul : F → F → F
  div : F → F → F
  complex : F → F → C
  cadd : C → C → C
  cmul : C → C → C
  absGt2 : C → Bool

/-- Exact arithmetic in an ordered field `K`: a complex number is the pair of its real and
imaginary part, and `|z| > 2` is decided as `4 < re² + im²`. This is the arithmetic of the
mathematical recurrence, without rounding, overflow or NaN; the program runs with
`float64` below. -/
def exact (K : Type) [LinearOrderedField K] : Arith where
  F := K
  C := K × K
  ofInt := fun n => (n : K)
  add := fun a b => a + b
  mul := fun a b => a * b
  div := fun a b => a / b
  complex := fun a b => (a, b)
  cadd := fun z w => (z.1 + w.1, z.2 + w.2)
  cmul := fun z w => (z.1 * w.1 - z.2 * w.2, z.1 * w.2 + z.2 * w.1)
  absGt2 := fun z => decide (4 < z.1 * z.1 + z.2 * z.2)

/-! ## IEEE 754 binary64 -/

/-- A value of Go's `float64` (IEEE 754 binary64): a finite number `(-1)^neg * m * 2^e`, an
infinity or a NaN. The finite values are kept in the form of the format: `e = -1074` and
`m < 2^52` for zero and the subnormal numbers, `2^52 ≤ m < 2^53` and `-1074 ≤ e ≤ 971` for
the normal numbers. -/
inductive F64 where
  | fin (neg : Bool) (m : Nat) (e : Int)
  | inf (neg : Bool)
  | nan
deriving DecidableEq, Repr

namespace F64

/-- The least `j' ≥ j` with `n < 2^(2^j')`, found by trying `j`, `j + 1`, ... -/
def expBits : Nat → Nat → Nat → Nat
  | 0, j, _ => j
  | fuel + 1, j, n => if n < 2 ^ (2 ^ j) then j else expBits fuel (j + 1) n

/-- Binary search for the binary logarithm: `log2Search n j k` adds to `k` the bits below
`2^j` that keep `2^k ≤ n`. -/
def log2Search (n : Nat) : Nat → Nat → Nat
  | 0, k => k
  | j + 1, k => if 2 ^ (k + 2 ^ j) ≤ n then log2Search n j (k + 2 ^ j) else log2Search n j k

/-- The binary logarithm of `n > 0`, rounded down: the largest `k` with `2^k ≤ n`. -/
def log2 (n : Nat) : Nat := log2Search n (expBits n 0 n) 0

/-- The largest `E` with `2^E ≤ n / d`, for positive `n` and `d`. -/
def binExp (n d : Nat) : Int :=
  if log2 d ≤ log2 n then
    if d * 2 ^ (log2 n - log2 d) ≤ n then ((log2 n - log2 d : Nat) : Int)
    else ((log2 n - log2 d : Nat) : Int) - 1
  else
    if d ≤ n * 2 ^ (log2 d - log2 n) then -((log2 d - log2 n : Nat) : Int)
    else -((log2 d - log2 n : Nat) : Int) - 1

/-- Rounding to nearest, ties to even, of the rational number `(-1)^neg * n / d`
(`d > 0`): the last place of the result has exponent `q = max (E - 52) (-1074)`, where
`2^E ≤ n / d < 2^(E+1)`; a result of `2^1024` or more is an infinity. -/
def round (neg : Bool) (n d : Nat) : F64 :=
  if n = 0 then fin neg 0 (-1074)
  else
    let q : Int := max (binExp n d - 52) (-1074)
    let N : Nat := if 0 ≤ q then n else n * 2 ^ (-q).toNat
    let D : Nat := if 0 ≤ q then d * 2 ^ q.toNat else d
    let t : Nat := N / D
    let r : Nat := N % D
    let m : Nat :=
      if 2 * r < D then t else if D < 2 * r then t + 1 else if t % 2 = 0 then t else t + 1
    if m = 2 ^ 53 then
      if 971 < q + 1 then inf neg else fin neg (2 ^ 52) (q + 1)
    else
      if 971 < q then inf neg else fin neg m q

/-- Conversion `float64(n)` of an integer. -/
def ofInt (n : Int) : F64 := F64.round (decide (n < 0)) n.natAbs 1

/-- Unary minus. -/
def neg : F64 → F64
  | fin s m e => fin (!s) m e
  | inf s => inf (!s)
  | nan => nan

/-- Function `math.Abs`. -/
def abs : F64 → F64
  | fin _ m e => fin false m e
  | inf _ => inf false
  | nan => nan

/-- The integer `(-1)^s * m * 2^(e - g)`, for `g ≤ e`. -/
def scaled (s : Bool) (m : Nat) (e g : Int) : Int :=
  if s then -((m * 2 ^ (e - g).toNat : Nat) : Int) else ((m * 2 ^ (e - g).toNat : Nat) : Int)

/-- Rounding of the number `c * 2^g`, for an integer `c ≠ 0`. -/
def roundScaled (c : Int) (g : Int) : F64 :=
  if 0 ≤ g then F64.round (decide (c < 0)) (c.natAbs * 2 ^ g.toNat) 1
  else F64.round (decide (c < 0)) c.natAbs (2 ^ (-g).toNat)

/-- Operator `+` of `float64`. -/
def add : F64 → F64 → F64
  | nan, _ => nan
  | _, nan => nan
  | inf s, inf t => if s = t then inf s else nan
  | inf s, fin _ _ _ => inf s
  | fin _ _ _, inf t => inf t
  | fin s m e, fin t k f =>
    if scaled s m e (min e f) + scaled t k f (min e f) = 0 then fin (s && t) 0 (-1074)
    else roundScaled (scaled s m e (min e f) + scaled t k f (min e f)) (min e f)

/-- Operator `-` of `float64`. -/
def sub (x y : F64) : F64 := add x (F64.neg y)

/-- Operator `*` of `float64`. -/
def mul : F64 → F64 → F64
  | nan, _ => nan
  | _, nan => nan
  | inf s, inf t => inf (s != t)
  | inf s, fin t k _ => if k = 0 then nan else inf (s != t)
  | fin s m _, inf t => if m = 0 then nan else inf (s != t)
  | fin s m e, fin t k f =>
    if 0 ≤ e + f then F64.round (s != t) (m * k * 2 ^ (e + f).toNat) 1
    else F64.round (s != t) (m * k) (2 ^ (-(e + f)).toNat)

/-- Operator `/` of `float64`. -/
def div : F64 → F64 → F64
  | nan, _ => nan
  | _, nan => nan
  | inf _, inf _ => nan
  | inf s, fin t _ _ => inf (s != t)
  | fin s _ _, inf t => fin (s != t) 0 (-1074)
  | fin s m e, fin t k f =>
    if k = 0 then (if m = 0 then nan else inf (s != t))
    else if 0 ≤ e - f then F64.round (s != t) (m * 2 ^ (e - f).toNat) k
    else F64.round (s != t) m (k * 2 ^ (-(e - f)).toNat)

/-- Operator `<` of `float64`: false when an operand is a NaN. -/
def lt : F64 → F64 → Bool
  | nan, _ => false
  | _, nan => false
  | inf s, inf t => s && !t
  | inf s, fin _ _ _ => s
  | fin _ _ _, inf t => !t
  | fin s m e, fin t k f => decide (scaled s m e (min e f) < scaled t k f (min e f))

/-- The integer square root: `isqrtAux n b r` adds to `r` the bits below `2^b` that keep
the square at most `n`. -/
def isqrtAux (n : Nat) : Nat → Nat → Nat
  | 0, r => r
  | b + 1, r =>
    if (r + 2 ^ b) * (r + 2 ^ b) ≤ n then isqrtAux n b (r + 2 ^ b) else isqrtAux n b r

/-- The largest `r` with `r * r ≤ n`. -/
def isqrt (n : Nat) : Nat := isqrtAux n (log2 n / 2 + 1) 0

/-- Function `math.Sqrt`, correctly rounded: for `x = m * 2^e > 0` and an even `p` with
`e + p ≥ 110`, the root of `X = m * 2^(e + p)` is `isqrt X` plus a fraction that is zero
exactly when `X` is a square, and `sqrt x = sqrt X * 2^(-p/2)`. -/
def sqrt : F64 → F64
  | nan => nan
  | inf s => if s then nan else inf false
  | fin s m e =>
    if m = 0 then fin s 0 (-1074)
    else if s then nan
    else
      let p : Nat := 2 * ((111 - e).toNat / 2)
      let X : Nat := m * 2 ^ (e + p).toNat
      let r : Nat := isqrt X
      F64.round false (2 * r + (if r * r = X then 0 else 1)) (2 ^ (p / 2 + 1))

/-- Function `math.Hypot(p, q)`: `+Inf` when an argument is infinite, NaN when one is a
NaN, and otherwise `max * Sqrt(1 + (min/max)*(min/max))` for the larger and the smaller of
`|p|` and `|q|`, or `0` when both are zero. -/
def hypot (p q : F64) : F64 :=
  if F64.abs p = inf false ∨ F64.abs q = inf false then inf false
  else if F64.abs p = nan ∨ F64.abs q = nan then nan
  else
    let hi := if lt (F64.abs p) (F64.abs q) then F64.abs q else F64.abs p
    let lo := if lt (F64.abs p) (F64.abs q) then F64.abs p else F64.abs q
    if hi = fin false 0 (-1074) then fin false 0 (-1074)
    else mul hi (F64.sqrt (add (ofInt 1) (mul (div lo hi) (div lo hi))))

end F64

/-- The rational value of a finite `float64`. -/
def F64.toRat : F64 → ℚ
  | F64.fin s m e => (if s then -1 else 1) * (m : ℚ) * (2 : ℚ) ^ e
  | _ => 0

/-- The arithmetic of Go on `float64` and `complex128`, every operation rounded on its own
(no multiplication is fused with an addition, as in the code that the compiler emits for
amd64): `complex128` is a pair of `float64`, the sum is taken by components, the product
`(a+bi)(c+di)` is `(a*c - b*d) + (a*d + b*c)i`, and `cmplx.Abs(z)` is
`math.Hypot(real(z), imag(z))`. -/
def float64 : Arith where
  F := F64
  C := F64 × F64
  ofInt := F64.ofInt
  add := F64.add
  mul := F64.mul
  div := F64.div
  complex := fun a b => (a, b)
  cadd := fun z w => (F64.add z.1 w.1, F64.add z.2 w.2)
  cmul := fun z w =>
    (F64.sub (F64.mul z.1 w.1) (F64.mul z.2 w.2), F64.add (F64.mul z.1 w.2) (F64.mul z.2 w.1))
  absGt2 := fun z => F64.lt (F64.ofInt 2) (F64.hypot z.1 z.2)

instance : DecidableEq float64.F := inferInstanceAs (DecidableEq F64)

instance : DecidableEq float64.C := inferInstanceAs (DecidableEq (F64 × F64))

/-! ## `mandelbrot` (lines 23-33) -/

/-- The loop `for i := 0; i < maxIter; i++ { ... }` of `mandelbrot`, entered with loop
counter `i`, current `z` and `n = maxIter - i` iterations left: with no iteration left the
function returns `color.Black`; otherwise it returns `color.Gray{uint8(255 - i%256)}` when
`cmplx.Abs(z) > 2`, and goes on with `z = z*z + c` and `i + 1` when not. -/
def mandelbrotLoop (A : Arith) (c : A.C) : Nat → Nat → A.C → Color
  | 0, _, _ => Black
  | n + 1, i, z =>
    if A.absGt2 z then Color.Gray (uint8 (255 - (i : Int) % 256))
    else mandelbrotLoop A c n (i + 1) (A.cadd (A.cmul z z) c)

/-- Function `mandelbrot(c complex128) color.Color`: `z := c`, then the loop from `i = 0`. -/
def mandelbrot (A : Arith) (c : A.C) : Color := mandelbrotLoop A c maxIter 0 c

/-- The sequence `z_0 = c`, `z_(k+1) = z_k * z_k + c` that `mandelbrot` iterates. -/
def orbit (A : Arith) (c : A.C) : Nat → A.C
  | 0 => c
  | k + 1 => A.cadd (A.cmul (orbit A c k) (orbit A c k)) c

/-! ## Package `image` -/

/-- Go struct `image.Rectangle` with corners `Min` and `Max`. -/
structure Rectangle where
  MinX : Int
  MinY : Int
  MaxX : Int
  MaxY : Int
deriving DecidableEq, Repr

/-- Function `image.Rect(x0, y0, x1, y1)`: the coordinates are swapped where needed so that
the result is well-formed. -/
def Rect (x0 y0 x1 y1 : Int) : Rectangle :=
  let (x0, x1) := if x0 > x1 then (x1, x0) else (x0, x1)
  let (y0, y1) := if y0 > y1 then (y1, y0) else (y0, y1)
  ⟨x0, y0, x1, y1⟩

/-- Method `Dx`: the width of a rectangle. -/
def Rectangle.Dx (r : Rectangle) : Int := r.MaxX - r.MinX

/-- Method `Dy`: the height of a rectangle. -/
def Rectangle.Dy (r : Rectangle) : Int := r.MaxY - r.MinY

/-- Test `Point{x, y}.In(r)`. -/
def Rectangle.Contains (r : Rectangle) (x y : Int) : Bool :=
  decide (r.MinX ≤ x) && decide (x < r.MaxX) && decide (r.MinY ≤ y) && decide (y < r.MaxY)

/-- Go struct `image.RGBA`: the byte slice `Pix` (four bytes R, G, B, A per pixel), the
distance `Stride` in bytes between vertically adjacent pixels, and the bounds `Rect`. -/
structure Image where
  Pix : List Nat
  Stride : Int
  Rect : Rectangle
deriving DecidableEq, Repr

/-- Function `image.NewRGBA(r)`: a zeroed buffer of `4 * r.Dx() * r.Dy()` bytes with stride
`4 * r.Dx()`. -/
def NewRGBA (r : Rectangle) : Image :=
  ⟨List.replicate (4 * r.Dx * r.Dy).toNat 0, 4 * r.Dx, r⟩

/-- Method `PixOffset(x, y)`: the index in `Pix` of the first byte of pixel `(x, y)`. -/
def Image.PixOffset (p : Image) (x y : Int) : Int :=
  (y - p.Rect.MinY) * p.Stride + (x - p.Rect.MinX) * 4

/-- Method `(*image.RGBA).Set(x, y, c)`: nothing happens for a point outside `Rect`;
otherwise `c` is converted by `color.RGBAModel` and its four channels are stored in
`Pix[i]`, ..., `Pix[i+3]`, where `i = PixOffset(x, y)`. -/
def Image.Set (p : Image) (x y : Int) (c : Color) : Image :=
  if p.Rect.Contains x y then
    let i := (p.PixOffset x y).toNat
    let c1 := rgbaModel c
    { p with Pix := (((p.Pix.set i c1.R).set (i + 1) c1.G).set (i + 2) c1.B).set (i + 3) c1.A }
  else p

/-- Method `(*image.RGBA).RGBAAt(x, y)`: the zero colour for a point outside `Rect`, and
otherwise the colour made of the four bytes at `PixOffset(x, y)`. -/
def Image.RGBAAt (p : Image) (x y : Int) : RGBA :=
  if p.Rect.Contains x y then
    let i := (p.PixOffset x y).toNat
    ⟨p.Pix.getD i 0, p.Pix.getD (i + 1) 0, p.Pix.getD (i + 2) 0, p.Pix.getD (i + 3) 0⟩
  else ⟨0, 0, 0, 0⟩

/-- Layout invariant of an `image.RGBA`, as established by `image.NewRGBA` and kept by
`SubImage`: a row of pixels fits in the stride, and the last row of `Rect` fits in `Pix`. -/
def Image.WF (p : Image) : Prop :=
  4 * p.Rect.Dx ≤ p.Stride ∧ (p.Rect.Dy - 1) * p.Stride + 4 * p.Rect.Dx ≤ p.Pix.length

instance (p : Image) : Decidable p.WF := by unfold Image.WF; infer_instance

/-! ## `renderRow` (lines 35-45) and the render phase of `main` (lines 47-55) -/

/-- The plane coordinate of pixel `(x, y)` in `renderRow`:
`complex(float64(x)/width*(xmax-xmin)+xmin, float64(y)/height*(ymax-ymin)+ymin)`. -/
def coord (A : Arith) (x y : Int) : A.C :=
  A.complex
    (A.add (A.mul (A.div (A.ofInt x) (A.ofInt width)) (A.ofInt (xmax - xmin))) (A.ofInt xmin))
    (A.add (A.mul (A.div (A.ofInt y) (A.ofInt height)) (A.ofInt (ymax - ymin))) (A.ofInt ymin))

/-- Body of the loop of `renderRow` for column `x`: `img.Set(x, y, mandelbrot(c))`. -/
def renderPixel (A : Arith) (img : Image) (x y : Int) : Image :=
  img.Set x y (mandelbrot A (coord A x y))

/-- Function `renderRow(img, y)`: the loop `for x := 0; x < width; x++` over the columns. -/
def renderRow (A : Arith) (img : Image) (y : Int) : Image :=
  (List.range width).foldl (fun im (x : Nat) => renderPixel A im (x : Int) y) img

/-- State of the render phase of `main`: the shared buffer and, for the task
`go renderRow(img, y)` of every row `y`, the value of its loop counter `x`. -/
structure RenderState where
  img : Image
  next : Nat → Nat

/-- State after `img := image.NewRGBA(image.Rect(0, 0, width, height))`: no task has
written anything. -/
def initState : RenderState := ⟨NewRGBA (Rect 0 0 width height), fun _ => 0⟩

/-- One step of the task of row `y`: an iteration of the loop of `renderRow(img, y)`, when
the task has one left. -/
def stepRow (A : Arith) (s : RenderState) (y : Nat) : RenderState :=
  if y < height ∧ s.next y < width then
    ⟨renderPixel A s.img (s.next y) y, Function.update s.next y (s.next y + 1)⟩
  else s

/-- Execution under a schedule: the list of the rows whose task takes the next step. -/
def run (A : Arith) (sched : List Nat) (s : RenderState) : RenderState :=
  sched.foldl (stepRow A) s

/-- Condition under which `wg.Wait()` returns: the loop of every row task has ended, so every
task has called `wg.Done()`. -/
def finished (s : RenderState) : Prop := ∀ y, y < height → s.next y = width

instance (s : RenderState) : Decidable (finished s) := by unfold finished; infer_instance

/-- The schedule that runs the row tasks one after the other, in increasing row order. -/
def seqSched : List Nat := (List.range height).flatMap (fun y => List.replicate width y)

/-- Colour that `mandelbrot` returns for an iteration result `r`: line 28 when the escape
test succeeded at loop counter `r < maxIter`, line 32 when the loop ended (`r = maxIter`). -/
def resultColor (r : Nat) : Color :=
  if r < maxIter then Color.Gray (uint8 (255 - (r : Int) % 256)) else Black

/-- The iteration result of the loop of `mandelbrot`: the loop counter at which the escape
test succeeds, or `maxIter` when the loop ends. -/
def iterationsLoop (A : Arith) (c : A.C) : Nat → Nat → A.C → Nat
  | 0, i, _ => i
  | n + 1, i, z =>
    if A.absGt2 z then i else iterationsLoop A c n (i + 1) (A.cadd (A.cmul z z) c)

/-- Iteration result of `mandelbrot(c)`. -/
def iterations (A : Arith) (c : A.C) : Nat := iterationsLoop A c maxIter 0 c

/-- Pixel value that `img.Set` stores for an iteration result. -/
def storedColor (r : Nat) : RGBA := rgbaModel (resultColor r)

/-- Channel `j` of a `color.RGBA`, in the order of the bytes in `Pix`. -/
def RGBA.chan (c : RGBA) (j : Nat) : Nat :=
  match j with
  | 0 => c.R
  | 1 => c.G
  | 2 => c.B
  | _ => c.A


/-- A sequence of `Set` calls: the pixels `ops` are written one after the other, pixel
`(x, y)` with the colour `v x y`. -/
def paint (v : Int → Int → Color) (p : Image) (ops : List (Int × Int)) : Image :=
  ops.foldl (fun im q => im.Set q.1 q.2 (v q.1 q.2)) p

/-- The pixels that `renderRow(img, y)` writes, in the order of its loop. -/
def rowOps (y : Int) : List (Int × Int) :=
  (List.range width).map (fun (x : Nat) => ((x : Int), y))

/-- The colour that `renderRow` computes for pixel `(x, y)`. -/
def pixelColor (A : Arith) (x y : Int) : Color := mandelbrot A (coord A x y)

/-- Invariant of the render phase: the buffer keeps the layout that `NewRGBA` gave it, no
loop counter exceeds `width`, and every pixel to the left of the loop counter of its row
holds its final colour. -/
def RenderInv (A : Arith) (s : RenderState) : Prop :=
  s.img.WF ∧ s.img.Rect = Rect 0 0 width height ∧
    ∀ x y : Nat, y < height → x < s.next y →
      s.img.RGBAAt (x : Int) (y : Int) = rgbaModel (pixelColor A (x : Int) (y : Int))

/-! ## Colour conversion -/

theorem uint8_of_lt (v : Nat) (h : v < 256) : uint8 (v : Int) = v := by
  unfold uint8
  omega

theorem uint8_gray (i : Nat) : uint8 (255 - (i : Int) % 256) = 255 - i % 256 := by
  unfold uint8
  omega

set_option maxRecDepth 100000 in
theorem gray_channel : ∀ Y, Y < 256 → ((Y ||| (Y <<< 8)) >>> 8) % 256 = Y := by
  decide

theorem rgbaModel_Gray (Y : Nat) (h : Y < 256) : rgbaModel (Color.Gray Y) = ⟨Y, Y, Y, 255⟩ := by
  simp [rgbaModel, Color.toRGBA, gray_channel Y h]

theorem rgbaModel_Black : rgbaModel Black = ⟨0, 0, 0, 255⟩ := by
  decide

theorem resultColor_lt (r : Nat) (h : r < maxIter) :
    resultColor r = Color.Gray (255 - r % 256) := by
  simp [resultColor, h, uint8_gray]

theorem resultColor_ge (r : Nat) (h : maxIter ≤ r) : resultColor r = Black := by
  simp [resultColor, Nat.not_lt.mpr h]

theorem storedColor_lt (r : Nat) (h : r < maxIter) :
    storedColor r = ⟨255 - r % 256, 255 - r % 256, 255 - r % 256, 255⟩ := by
  rw [storedColor, resultColor_lt r h]
  exact rgbaModel_Gray _ (by omega)

theorem storedColor_ge (r : Nat) (h : maxIter ≤ r) : storedColor r = ⟨0, 0, 0, 255⟩ := by
  rw [storedColor, resultColor_ge r h]
  exact rgbaModel_Black

/-! ## The loop of `mandelbrot` -/

theorem mandelbrotLoop_eq_resultColor (A : Arith) (c : A.C) :
    ∀ (n i : Nat) (z : A.C), i + n = maxIter →
      mandelbrotLoop A c n i z = resultColor (iterationsLoop A c n i z) := by
  intro n
  induction n with
  | zero =>
    intro i z h
    simp only [mandelbrotLoop, iterationsLoop]
    rw [resultColor_ge i (by omega)]
  | succ n ih =>
    intro i z h
    simp only [mandelbrotLoop, iterationsLoop]
    by_cases hz : A.absGt2 z = true
    · simp only [hz, if_true]
      simp [resultColor, show i < maxIter by omega]
    · simp only [hz]
      exact ih (i + 1) _ (by omega)

theorem mandelbrot_eq_resultColor (A : Arith) (c : A.C) :
    mandelbrot A c = resultColor (iterations A c) :=
  mandelbrotLoop_eq_resultColor A c maxIter 0 c (by simp)

/-- Loop invariant: entered at counter `i` with `z = z_i` and `n` iterations left, the loop
exits at the first index `k` in `[i, i + n)` whose `z_k` passes the escape test, and runs
to the end when there is none. -/
theorem iterationsLoop_orbit (A : Arith) (c : A.C) :
    ∀ (n i : Nat),
      (∀ k, i ≤ k → k < i + n → A.absGt2 (orbit A c k) = true →
        (∀ j, i ≤ j → j < k → A.absGt2 (orbit A c j) = false) →
        iterationsLoop A c n i (orbit A c i) = k) ∧
      ((∀ j, i ≤ j → j < i + n → A.absGt2 (orbit A c j) = false) →
        iterationsLoop A c n i (orbit A c i) = i + n) := by
  intro n
  induction n with
  | zero =>
    intro i
    refine ⟨fun k h1 h2 => by omega, fun _ => by simp [iterationsLoop]⟩
  | succ n ih =>
    intro i
    obtain ⟨ih1, ih2⟩ := ih (i + 1)
    constructor
    · intro k hik hk hesc hmin
      simp only [iterationsLoop]
      by_cases hz : A.absGt2 (orbit A c i) = true
      · simp only [hz, if_true]
        by_contra hne
        have := hmin i (le_refl i) (by omega)
        rw [hz] at this
        exact Bool.noConfusion this
      · simp only [hz]
        have hne : i ≠ k := by
          rintro rfl
          exact hz hesc
        exact ih1 k (by omega) (by omega) hesc (fun j h1 h2 => hmin j (by omega) h2)
    · intro hall
      simp only [iterationsLoop]
      have hz : A.absGt2 (orbit A c i) = false := hall i (le_refl i) (by omega)
      simp only [hz]
      rw [show i + (n + 1) = i + 1 + n by omega]
      exact ih2 (fun j h1 h2 => hall j (by omega) (by omega))

theorem iterations_of_first_escape (A : Arith) (c : A.C) (n : Nat) (hn : n < maxIter)
    (hesc : A.absGt2 (orbit A c n) = true)
    (hmin : ∀ j, j < n → A.absGt2 (orbit A c j) = false) : iterations A c = n :=
  (iterationsLoop_orbit A c maxIter 0).1 n (Nat.zero_le n) (by omega) hesc
    (fun j _ h => hmin j h)

theorem iterations_of_no_escape (A : Arith) (c : A.C)
    (hall : ∀ j, j < maxIter → A.absGt2 (orbit A c j) = false) : iterations A c = maxIter := by
  have := (iterationsLoop_orbit A c maxIter 0).2 (fun j _ h => hall j (by omega))
  simpa [iterations] using this

theorem iterations_le (A : Arith) (c : A.C) : iterations A c ≤ maxIter := by
  have h : ∀ (n i : Nat) (z : A.C), iterationsLoop A c n i z ≤ i + n := by
    intro n
    induction n with
    | zero => intro i z; simp [iterationsLoop]
    | succ n ih =>
      intro i z
      simp only [iterationsLoop]
      split
      · omega
      · have := ih (i + 1) (A.cadd (A.cmul z z) c)
        omega
  simpa [iterations] using h maxIter 0 c


theorem orbit_of_fixed (A : Arith) (c : A.C) (h : A.cadd (A.cmul c c) c = c) :
    ∀ k, orbit A c k = c := by
  intro k
  induction k with
  | zero => rfl
  | succ k ih => simp only [orbit, ih, h]

theorem mandelbrot_escapes_at_zero (A : Arith) (c : A.C) (h : A.absGt2 c = true) :
    iterations A c = 0 ∧ mandelbrot A c = Color.Gray 255 := by
  have hi : iterations A c = 0 :=
    iterations_of_first_escape A c 0 (by decide) h (fun j hj => absurd hj (Nat.not_lt_zero j))
  refine ⟨hi, ?_⟩
  rw [mandelbrot_eq_resultColor, hi]
  decide

theorem mandelbrot_of_fixed (A : Arith) (c : A.C) (h : A.cadd (A.cmul c c) c = c)
    (hc : A.absGt2 c = false) : iterations A c = maxIter ∧ mandelbrot A c = Black := by
  have hi : iterations A c = maxIter :=
    iterations_of_no_escape A c (fun j _ => by rw [orbit_of_fixed A c h j]; exact hc)
  refine ⟨hi, ?_⟩
  rw [mandelbrot_eq_resultColor, hi]
  exact resultColor_ge _ (le_refl _)

/-! ## Exact arithmetic -/

section Exact

variable {K : Type} [LinearOrderedField K]

theorem exact_absGt2_iff (z : K × K) :
    (exact K).absGt2 z = true ↔ 4 < z.1 * z.1 + z.2 * z.2 := by
  simp [exact]

theorem exact_step (z c : K × K) :
    (exact K).cadd ((exact K).cmul z z) c
      = (z.1 * z.1 - z.2 * z.2 + c.1, z.1 * z.2 + z.2 * z.1 + c.2) := rfl

theorem exact_zero_fixed :
    (exact K).cadd ((exact K).cmul ((0 : K), (0 : K)) (0, 0)) (0, 0) = ((0 : K), (0 : K)) := by
  simp [exact_step]

theorem exact_zero_bounded : (exact K).absGt2 ((0 : K), (0 : K)) = false := by
  simp [exact]

theorem cauchy_bound (a b p q : K) :
    ((a * a - b * b) * p + (a * b + b * a) * q) * ((a * a - b * b) * p + (a * b + b * a) * q)
      ≤ (a * a + b * b) * (a * a + b * b) * (p * p + q * q) := by
  nlinarith [sq_nonneg ((a * a - b * b) * q - (a * b + b * a) * p)]

theorem growth_bound (s t R : K) (hs : 4 < s) (ht0 : 0 ≤ t) (hts : t ≤ s)
    (hR : R * R ≤ s * s * t) : s < s * s + 2 * R + t := by
  by_contra hcon
  push_neg at hcon
  have h1 : 0 < s * s - s := by nlinarith
  have h2 : 0 ≤ -(2 * R) - (s * s + t - s) := by linarith
  have h3 : (s * s + t - s) * (s * s + t - s) ≤ (2 * R) * (2 * R) := by nlinarith
  have h4 : 0 ≤ (s - t) * (2 * s * s + s - t) := by
    apply mul_nonneg <;> nlinarith
  have h5 : 0 < s * s * s * (s - 4) := by
    have : 0 < s * s * s := by positivity
    nlinarith
  nlinarith

/-- Outside the disc of radius 2 and not closer to the origin than `c`, a step `z*z + c`
strictly increases the modulus. -/
theorem exact_step_grows (z c : K × K) (hz : 4 < z.1 * z.1 + z.2 * z.2)
    (hc : c.1 * c.1 + c.2 * c.2 ≤ z.1 * z.1 + z.2 * z.2) :
    z.1 * z.1 + z.2 * z.2
      < ((exact K).cadd ((exact K).cmul z z) c).1 * ((exact K).cadd ((exact K).cmul z z) c).1
        + ((exact K).cadd ((exact K).cmul z z) c).2 * ((exact K).cadd ((exact K).cmul z z) c).2 := by
  rw [exact_step]
  have hg := growth_bound (z.1 * z.1 + z.2 * z.2) (c.1 * c.1 + c.2 * c.2)
    ((z.1 * z.1 - z.2 * z.2) * c.1 + (z.1 * z.2 + z.2 * z.1) * c.2) hz
    (by nlinarith [mul_self_nonneg c.1, mul_self_nonneg c.2]) hc (cauchy_bound z.1 z.2 c.1 c.2)
  simp only
  nlinarith

theorem exact_escape_step (c : K × K) (k : Nat)
    (h : 4 < (orbit (exact K) c k).1 * (orbit (exact K) c k).1
          + (orbit (exact K) c k).2 * (orbit (exact K) c k).2 ∧
        c.1 * c.1 + c.2 * c.2 ≤ (orbit (exact K) c k).1 * (orbit (exact K) c k).1
          + (orbit (exact K) c k).2 * (orbit (exact K) c k).2) :
    4 < (orbit (exact K) c (k + 1)).1 * (orbit (exact K) c (k + 1)).1
          + (orbit (exact K) c (k + 1)).2 * (orbit (exact K) c (k + 1)).2 ∧
      c.1 * c.1 + c.2 * c.2 ≤ (orbit (exact K) c (k + 1)).1 * (orbit (exact K) c (k + 1)).1
          + (orbit (exact K) c (k + 1)).2 * (orbit (exact K) c (k + 1)).2 := by
  have hg := exact_step_grows (orbit (exact K) c k) c h.1 h.2
  simp only [orbit]
  constructor
  · exact lt_trans h.1 hg
  · exact le_of_lt (lt_of_le_of_lt h.2 hg)

theorem exact_escape_from (c : K × K) (n : Nat)
    (h : 4 < (orbit (exact K) c n).1 * (orbit (exact K) c n).1
          + (orbit (exact K) c n).2 * (orbit (exact K) c n).2 ∧
        c.1 * c.1 + c.2 * c.2 ≤ (orbit (exact K) c n).1 * (orbit (exact K) c n).1
          + (orbit (exact K) c n).2 * (orbit (exact K) c n).2) :
    ∀ d, 4 < (orbit (exact K) c (n + d)).1 * (orbit (exact K) c (n + d)).1
          + (orbit (exact K) c (n + d)).2 * (orbit (exact K) c (n + d)).2 ∧
        c.1 * c.1 + c.2 * c.2 ≤ (orbit (exact K) c (n + d)).1 * (orbit (exact K) c (n + d)).1
          + (orbit (exact K) c (n + d)).2 * (orbit (exact K) c (n + d)).2 := by
  intro d
  induction d with
  | zero => exact h
  | succ d ih => exact exact_escape_step c (n + d) ih

theorem exact_escape_forever (c : K × K) (n m : Nat) (hnm : n ≤ m)
    (h : (exact K).absGt2 (orbit (exact K) c n) = true) :
    (exact K).absGt2 (orbit (exact K) c m) = true := by
  rw [exact_absGt2_iff] at h ⊢
  obtain ⟨d, rfl⟩ := Nat.exists_eq_add_of_le hnm
  by_cases hc : c.1 * c.1 + c.2 * c.2 ≤ 4
  · exact (exact_escape_from c n ⟨h, le_trans hc (le_of_lt h)⟩ d).1
  · have h0 : 4 < (orbit (exact K) c 0).1 * (orbit (exact K) c 0).1
          + (orbit (exact K) c 0).2 * (orbit (exact K) c 0).2 ∧
        c.1 * c.1 + c.2 * c.2 ≤ (orbit (exact K) c 0).1 * (orbit (exact K) c 0).1
          + (orbit (exact K) c 0).2 * (orbit (exact K) c 0).2 :=
      ⟨lt_of_not_le hc, le_refl _⟩
    have := (exact_escape_from c 0 h0 (n + d)).1
    simpa using this

end Exact


/-! ## Layout of the pixel buffer -/

theorem Contains_iff (r : Rectangle) (x y : Int) :
    r.Contains x y = true ↔ r.MinX ≤ x ∧ x < r.MaxX ∧ r.MinY ≤ y ∧ y < r.MaxY := by
  simp [Rectangle.Contains, and_assoc]

/-- Under the layout invariant the four bytes of a pixel of `Rect` lie inside `Pix`, so the
slice expression `p.Pix[i : i+4 : i+4]` of `Set` and `RGBAAt` is in range. -/
theorem offset_in_range (p : Image) (hwf : p.WF) (x y : Int) (hin : p.Rect.Contains x y = true) :
    0 ≤ p.PixOffset x y ∧ p.PixOffset x y + 4 ≤ p.Pix.length := by
  rw [Contains_iff] at hin
  obtain ⟨hx0, hx1, hy0, hy1⟩ := hin
  obtain ⟨hs, hl⟩ := hwf
  simp only [Rectangle.Dx, Rectangle.Dy] at hs hl
  have hS : 0 ≤ p.Stride := by omega
  have h1 : 0 ≤ (y - p.Rect.MinY) * p.Stride := mul_nonneg (by omega) hS
  have h2 : (y - p.Rect.MinY) * p.Stride ≤ (p.Rect.MaxY - p.Rect.MinY - 1) * p.Stride :=
    mul_le_mul_of_nonneg_right (by omega) hS
  simp only [Image.PixOffset]
  constructor
  · omega
  · omega

/-- Under the layout invariant the byte blocks of two different pixels of `Rect` are
disjoint. -/
theorem offset_disjoint (p : Image) (hwf : p.WF) (x y x' y' : Int)
    (hin : p.Rect.Contains x y = true) (hin' : p.Rect.Contains x' y' = true)
    (hlt : p.PixOffset x y < p.PixOffset x' y' + 4)
    (hlt' : p.PixOffset x' y' < p.PixOffset x y + 4) : x = x' ∧ y = y' := by
  rw [Contains_iff] at hin hin'
  obtain ⟨hx0, hx1, hy0, hy1⟩ := hin
  obtain ⟨hx0', hx1', hy0', hy1'⟩ := hin'
  obtain ⟨hs, -⟩ := hwf
  simp only [Rectangle.Dx] at hs
  have hS : 0 ≤ p.Stride := by omega
  simp only [Image.PixOffset] at hlt hlt'
  have hy : y = y' := by
    rcases lt_trichotomy y y' with h | h | h
    · exfalso
      have h2 : (y - p.Rect.MinY + 1) * p.Stride ≤ (y' - p.Rect.MinY) * p.Stride :=
        mul_le_mul_of_nonneg_right (by omega) hS
      have h3 : (y - p.Rect.MinY + 1) * p.Stride = (y - p.Rect.MinY) * p.Stride + p.Stride := by
        ring
      omega
    · exact h
    · exfalso
      have h2 : (y' - p.Rect.MinY + 1) * p.Stride ≤ (y - p.Rect.MinY) * p.Stride :=
        mul_le_mul_of_nonneg_right (by omega) hS
      have h3 : (y' - p.Rect.MinY + 1) * p.Stride = (y' - p.Rect.MinY) * p.Stride + p.Stride := by
        ring
      omega
  subst hy
  exact ⟨by omega, rfl⟩

theorem Set_Rect (p : Image) (x y : Int) (c : Color) : (p.Set x y c).Rect = p.Rect := by
  unfold Image.Set
  split <;> rfl

theorem Set_Stride (p : Image) (x y : Int) (c : Color) : (p.Set x y c).Stride = p.Stride := by
  unfold Image.Set
  split <;> rfl

theorem Set_length (p : Image) (x y : Int) (c : Color) :
    (p.Set x y c).Pix.length = p.Pix.length := by
  unfold Image.Set
  split
  · simp
  · rfl

theorem Set_WF (p : Image) (hwf : p.WF) (x y : Int) (c : Color) : (p.Set x y c).WF := by
  unfold Image.WF at hwf ⊢
  rw [Set_Rect, Set_Stride, Set_length]
  exact hwf

theorem Set_PixOffset (p : Image) (x y : Int) (c : Color) (x' y' : Int) :
    (p.Set x y c).PixOffset x' y' = p.PixOffset x' y' := by
  simp only [Image.PixOffset, Set_Rect, Set_Stride]

/-- The bytes of the buffer after `Set(x, y, c)`: the four bytes of pixel `(x, y)` hold the
channels of the converted colour, every other byte is unchanged. -/
theorem Set_Pix (p : Image) (hwf : p.WF) (x y : Int) (c : Color) (k : Nat) :
    (p.Set x y c).Pix[k]? =
      if p.Rect.Contains x y = true ∧ (p.PixOffset x y).toNat ≤ k
          ∧ k < (p.PixOffset x y).toNat + 4
      then some ((rgbaModel c).chan (k - (p.PixOffset x y).toNat))
      else p.Pix[k]? := by
  by_cases hin : p.Rect.Contains x y = true
  · obtain ⟨h0, h1⟩ := offset_in_range p hwf x y hin
    have hlen : (p.PixOffset x y).toNat + 4 ≤ p.Pix.length := by omega
    simp only [Image.Set, hin, if_true, true_and]
    generalize (p.PixOffset x y).toNat = i at hlen ⊢
    simp only [List.getElem?_set, List.length_set]
    by_cases hk : i ≤ k ∧ k < i + 4
    · rw [if_pos hk]
      obtain ⟨d, rfl⟩ := Nat.exists_eq_add_of_le hk.1
      have hd : d < 4 := by omega
      interval_cases d
      · simp [RGBA.chan]
        omega
      · simp [RGBA.chan]
        omega
      · simp [RGBA.chan]
        omega
      · simp [RGBA.chan]
        omega
    · rw [if_neg hk]
      have e0 : i ≠ k := by omega
      have e1 : i + 1 ≠ k := by omega
      have e2 : i + 2 ≠ k := by omega
      have e3 : i + 3 ≠ k := by omega
      simp [e0, e1, e2, e3]
  · simp [Image.Set, hin]


theorem Image.eq_of_fields (p q : Image) (h1 : p.Pix = q.Pix) (h2 : p.Stride = q.Stride)
    (h3 : p.Rect = q.Rect) : p = q := by
  cases p
  cases q
  simp_all

theorem RGBAAt_eq (p : Image) (x y : Int) (hin : p.Rect.Contains x y = true) :
    p.RGBAAt x y =
      ⟨(p.Pix[(p.PixOffset x y).toNat]?).getD 0, (p.Pix[(p.PixOffset x y).toNat + 1]?).getD 0,
        (p.Pix[(p.PixOffset x y).toNat + 2]?).getD 0,
        (p.Pix[(p.PixOffset x y).toNat + 3]?).getD 0⟩ := by
  simp [Image.RGBAAt, hin, List.getD_eq_getElem?_getD]

theorem RGBAAt_outside (p : Image) (x y : Int) (hin : ¬ p.Rect.Contains x y = true) :
    p.RGBAAt x y = ⟨0, 0, 0, 0⟩ := by
  simp [Image.RGBAAt, hin]

/-- The pixels of the buffer after `Set(x, y, c)`: pixel `(x, y)`, when it lies in `Rect`,
holds the converted colour, and every other pixel is unchanged. -/
theorem RGBAAt_Set (p : Image) (hwf : p.WF) (x y : Int) (c : Color) (x' y' : Int) :
    (p.Set x y c).RGBAAt x' y' =
      if x' = x ∧ y' = y ∧ p.Rect.Contains x y = true then rgbaModel c
      else p.RGBAAt x' y' := by
  by_cases hin' : p.Rect.Contains x' y' = true
  · rw [RGBAAt_eq _ _ _ (by rw [Set_Rect]; exact hin'), RGBAAt_eq p _ _ hin', Set_PixOffset]
    simp only [Set_Pix p hwf]
    obtain ⟨h0', h1'⟩ := offset_in_range p hwf x' y' hin'
    by_cases hsame : x' = x ∧ y' = y ∧ p.Rect.Contains x y = true
    · obtain ⟨rfl, rfl, hin⟩ := hsame
      simp [hin, RGBA.chan]
    · rw [if_neg hsame]
      by_cases hin : p.Rect.Contains x y = true
      · obtain ⟨h0, h1⟩ := offset_in_range p hwf x y hin
        have hdis : p.PixOffset x y + 4 ≤ p.PixOffset x' y'
            ∨ p.PixOffset x' y' + 4 ≤ p.PixOffset x y := by
          by_contra hcon
          push_neg at hcon
          obtain ⟨e1, e2⟩ := offset_disjoint p hwf x y x' y' hin hin' (by omega) (by omega)
          exact hsame ⟨e1.symm, e2.symm, hin⟩
        have n0 : ¬ (p.Rect.Contains x y = true ∧ (p.PixOffset x y).toNat ≤ (p.PixOffset x' y').toNat
            ∧ (p.PixOffset x' y').toNat < (p.PixOffset x y).toNat + 4) := by omega
        have n1 : ¬ (p.Rect.Contains x y = true
            ∧ (p.PixOffset x y).toNat ≤ (p.PixOffset x' y').toNat + 1
            ∧ (p.PixOffset x' y').toNat + 1 < (p.PixOffset x y).toNat + 4) := by omega
        have n2 : ¬ (p.Rect.Contains x y = true
            ∧ (p.PixOffset x y).toNat ≤ (p.PixOffset x' y').toNat + 2
            ∧ (p.PixOffset x' y').toNat + 2 < (p.PixOffset x y).toNat + 4) := by omega
        have n3 : ¬ (p.Rect.Contains x y = true
            ∧ (p.PixOffset x y).toNat ≤ (p.PixOffset x' y').toNat + 3
            ∧ (p.PixOffset x' y').toNat + 3 < (p.PixOffset x y).toNat + 4) := by omega
        rw [if_neg n0, if_neg n1, if_neg n2, if_neg n3]
      · simp [hin]
  · rw [RGBAAt_outside _ _ _ (by rw [Set_Rect]; exact hin'), RGBAAt_outside p _ _ hin']
    rw [if_neg]
    rintro ⟨rfl, rfl, hin⟩
    exact hin' hin

/-! ## Sequences of `Set` calls -/

theorem paint_nil (v : Int → Int → Color) (p : Image) : paint v p [] = p := rfl

theorem paint_concat (v : Int → Int → Color) (p : Image) (ops : List (Int × Int))
    (q : Int × Int) : paint v p (ops ++ [q]) = (paint v p ops).Set q.1 q.2 (v q.1 q.2) := by
  simp [paint, List.foldl_append]

theorem paint_append (v : Int → Int → Color) (p : Image) (l l' : List (Int × Int)) :
    paint v p (l ++ l') = paint v (paint v p l) l' := by
  simp [paint, List.foldl_append]

theorem paint_Rect (v : Int → Int → Color) (p : Image) (ops : List (Int × Int)) :
    (paint v p ops).Rect = p.Rect := by
  induction ops using List.reverseRecOn with
  | nil => rfl
  | append_singleton l q ih => rw [paint_concat, Set_Rect, ih]

theorem paint_Stride (v : Int → Int → Color) (p : Image) (ops : List (Int × Int)) :
    (paint v p ops).Stride = p.Stride := by
  induction ops using List.reverseRecOn with
  | nil => rfl
  | append_singleton l q ih => rw [paint_concat, Set_Stride, ih]

theorem paint_length (v : Int → Int → Color) (p : Image) (ops : List (Int × Int)) :
    (paint v p ops).Pix.length = p.Pix.length := by
  induction ops using List.reverseRecOn with
  | nil => rfl
  | append_singleton l q ih => rw [paint_concat, Set_length, ih]

theorem paint_WF (v : Int → Int → Color) (p : Image) (hwf : p.WF) (ops : List (Int × Int)) :
    (paint v p ops).WF := by
  unfold Image.WF at hwf ⊢
  rw [paint_Rect, paint_Stride, paint_length]
  exact hwf

theorem paint_PixOffset (v : Int → Int → Color) (p : Image) (ops : List (Int × Int))
    (x y : Int) : (paint v p ops).PixOffset x y = p.PixOffset x y := by
  simp only [Image.PixOffset, paint_Rect, paint_Stride]

/-- A byte that belongs to no pixel of `ops` is left as it was. -/
theorem paint_Pix_untouched (v : Int → Int → Color) (p : Image) (hwf : p.WF) (k : Nat)
    (ops : List (Int × Int))
    (h : ∀ q, q ∈ ops → p.Rect.Contains q.1 q.2 = true →
      ¬ ((p.PixOffset q.1 q.2).toNat ≤ k ∧ k < (p.PixOffset q.1 q.2).toNat + 4)) :
    (paint v p ops).Pix[k]? = p.Pix[k]? := by
  induction ops using List.reverseRecOn with
  | nil => rfl
  | append_singleton l q ih =>
    rw [paint_concat, Set_Pix _ (paint_WF v p hwf l), paint_Rect, paint_PixOffset]
    rw [if_neg]
    · exact ih (fun q' hq' => h q' (List.mem_append_left _ hq'))
    · rintro ⟨hin, hk⟩
      exact h q (by simp) hin hk

/-- A byte of a pixel of `ops` holds the matching channel of the colour of that pixel. -/
theorem paint_Pix_written (v : Int → Int → Color) (p : Image) (hwf : p.WF) (k : Nat)
    (ops : List (Int × Int)) (q : Int × Int) (hq : q ∈ ops)
    (hin : p.Rect.Contains q.1 q.2 = true)
    (hk : (p.PixOffset q.1 q.2).toNat ≤ k ∧ k < (p.PixOffset q.1 q.2).toNat + 4) :
    (paint v p ops).Pix[k]? =
      some ((rgbaModel (v q.1 q.2)).chan (k - (p.PixOffset q.1 q.2).toNat)) := by
  induction ops using List.reverseRecOn with
  | nil => simp at hq
  | append_singleton l q' ih =>
    rw [paint_concat, Set_Pix _ (paint_WF v p hwf l), paint_Rect, paint_PixOffset]
    by_cases hlast : p.Rect.Contains q'.1 q'.2 = true
        ∧ (p.PixOffset q'.1 q'.2).toNat ≤ k ∧ k < (p.PixOffset q'.1 q'.2).toNat + 4
    · rw [if_pos hlast]
      obtain ⟨hin', hk'⟩ := hlast
      obtain ⟨h0, h1⟩ := offset_in_range p hwf q.1 q.2 hin
      obtain ⟨h0', h1'⟩ := offset_in_range p hwf q'.1 q'.2 hin'
      obtain ⟨e1, e2⟩ := offset_disjoint p hwf q.1 q.2 q'.1 q'.2 hin hin' (by omega) (by omega)
      rw [e1, e2]
    · rw [if_neg hlast]
      have hq' : q ∈ l := by
        rcases List.mem_append.mp hq with h | h
        · exact h
        · exfalso
          have : q = q' := by simpa using h
          subst this
          exact hlast ⟨hin, hk⟩
      exact ih hq'

/-- The buffer after a sequence of `Set` calls depends only on the set of the pixels
written, not on the order of the calls. -/
theorem paint_ext (v : Int → Int → Color) (p : Image) (hwf : p.WF)
    (ops ops' : List (Int × Int)) (h : ∀ q, q ∈ ops ↔ q ∈ ops') :
    paint v p ops = paint v p ops' := by
  apply Image.eq_of_fields
  · apply List.ext_getElem?
    intro k
    by_cases hex : ∃ q, q ∈ ops ∧ p.Rect.Contains q.1 q.2 = true
        ∧ (p.PixOffset q.1 q.2).toNat ≤ k ∧ k < (p.PixOffset q.1 q.2).toNat + 4
    · obtain ⟨q, hq, hin, hk⟩ := hex
      rw [paint_Pix_written v p hwf k ops q hq hin hk,
        paint_Pix_written v p hwf k ops' q ((h q).mp hq) hin hk]
    · push_neg at hex
      rw [paint_Pix_untouched v p hwf k ops (fun q hq hin hk => by
            have := hex q hq hin hk.1
            omega),
        paint_Pix_untouched v p hwf k ops' (fun q hq hin hk => by
            have := hex q ((h q).mpr hq) hin hk.1
            omega)]
  · rw [paint_Stride, paint_Stride]
  · rw [paint_Rect, paint_Rect]

/-- The pixels of the buffer after a sequence of `Set` calls. -/
theorem RGBAAt_paint (v : Int → Int → Color) (p : Image) (hwf : p.WF)
    (ops : List (Int × Int)) (x y : Int) :
    (paint v p ops).RGBAAt x y =
      if (x, y) ∈ ops ∧ p.Rect.Contains x y = true then rgbaModel (v x y)
      else p.RGBAAt x y := by
  induction ops using List.reverseRecOn with
  | nil => simp [paint_nil]
  | append_singleton l q ih =>
    rw [paint_concat, RGBAAt_Set _ (paint_WF v p hwf l), paint_Rect, ih]
    by_cases hlast : x = q.1 ∧ y = q.2 ∧ p.Rect.Contains q.1 q.2 = true
    · obtain ⟨rfl, rfl, hin⟩ := hlast
      simp [hin]
    · rw [if_neg hlast]
      by_cases hin : p.Rect.Contains x y = true
      · have hne : (x, y) ≠ q := by
          rintro rfl
          exact hlast ⟨rfl, rfl, hin⟩
        simp [hin, hne]
      · simp [hin]


/-! ## `renderRow` -/

theorem renderRow_eq_paint (A : Arith) (img : Image) (y : Int) :
    renderRow A img y = paint (pixelColor A) img (rowOps y) := by
  simp only [renderRow, paint, rowOps, List.foldl_map, renderPixel, pixelColor]

theorem mem_rowOps (y : Int) (q : Int × Int) :
    q ∈ rowOps y ↔ q.2 = y ∧ 0 ≤ q.1 ∧ q.1 < width := by
  obtain ⟨a, b⟩ := q
  simp only [rowOps, List.mem_map, List.mem_range, Prod.mk.injEq]
  constructor
  · rintro ⟨x, hx, rfl, rfl⟩
    exact ⟨rfl, by omega, by omega⟩
  · rintro ⟨rfl, h0, h1⟩
    exact ⟨a.toNat, by omega, by omega, rfl⟩

theorem foldl_renderRow_eq_paint (A : Arith) (rows : List Nat) :
    ∀ img : Image, rows.foldl (fun im (y : Nat) => renderRow A im (y : Int)) img
      = paint (pixelColor A) img (rows.flatMap (fun y => rowOps (y : Int))) := by
  induction rows with
  | nil => intro img; rfl
  | cons y t ih =>
    intro img
    rw [List.foldl_cons, ih, List.flatMap_cons, paint_append, renderRow_eq_paint]

theorem mem_rows_ops (rows : List Nat) (q : Int × Int) :
    q ∈ rows.flatMap (fun y => rowOps (y : Int))
      ↔ (∃ y, y ∈ rows ∧ q.2 = (y : Int)) ∧ 0 ≤ q.1 ∧ q.1 < width := by
  simp only [List.mem_flatMap, mem_rowOps]
  constructor
  · rintro ⟨y, hy, h1, h2, h3⟩
    exact ⟨⟨y, hy, h1⟩, h2, h3⟩
  · rintro ⟨⟨y, hy, h1⟩, h2, h3⟩
    exact ⟨y, hy, h1, h2, h3⟩

/-! ## The buffer of `main` -/

theorem Rect_main : Rect 0 0 width height = ⟨0, 0, 3840, 2160⟩ := by
  decide

theorem NewRGBA_WF (r : Rectangle) (hx : 0 ≤ r.Dx) (hy : 0 ≤ r.Dy) : (NewRGBA r).WF := by
  simp only [Image.WF, NewRGBA, List.length_replicate]
  refine ⟨le_refl _, ?_⟩
  have h : 0 ≤ 4 * r.Dx * r.Dy := mul_nonneg (by omega) hy
  rw [Int.toNat_of_nonneg h]
  have e : (r.Dy - 1) * (4 * r.Dx) + 4 * r.Dx = 4 * r.Dx * r.Dy := by ring
  omega

theorem main_img_WF : (NewRGBA (Rect 0 0 width height)).WF := by
  apply NewRGBA_WF <;> rw [Rect_main] <;> decide

theorem main_Contains (x y : Int) :
    (Rect 0 0 width height).Contains x y = true
      ↔ 0 ≤ x ∧ x < width ∧ 0 ≤ y ∧ y < height := by
  rw [Rect_main, Contains_iff]
  simp [width, height]

theorem NewRGBA_RGBAAt (r : Rectangle) (x y : Int) : (NewRGBA r).RGBAAt x y = ⟨0, 0, 0, 0⟩ := by
  by_cases hin : r.Contains x y = true
  · rw [RGBAAt_eq _ _ _ hin]
    simp only [NewRGBA, List.getElem?_replicate]
    congr <;> split <;> rfl
  · exact RGBAAt_outside _ _ _ hin

theorem rgbaModel_resultColor_A (r : Nat) : (rgbaModel (resultColor r)).A = 255 := by
  by_cases h : r < maxIter
  · have := storedColor_lt r h
    unfold storedColor at this
    rw [this]
  · have := storedColor_ge r (Nat.le_of_not_lt h)
    unfold storedColor at this
    rw [this]

theorem pixelColor_opaque (A : Arith) (x y : Int) : (rgbaModel (pixelColor A x y)).A = 255 := by
  rw [pixelColor, mandelbrot_eq_resultColor]
  exact rgbaModel_resultColor_A _

/-! ## The scheduler of the row tasks -/

theorem RenderInv_init (A : Arith) : RenderInv A initState :=
  ⟨main_img_WF, rfl, fun x _ _ hx => absurd hx (Nat.not_lt_zero x)⟩

theorem RenderInv_step (A : Arith) (s : RenderState) (h : RenderInv A s) (y0 : Nat) :
    RenderInv A (stepRow A s y0) := by
  obtain ⟨hwf, hrect, hpix⟩ := h
  unfold stepRow
  split
  · rename_i hstep
    obtain ⟨hy0, hx0⟩ := hstep
    refine ⟨Set_WF _ hwf _ _ _, by simp only [renderPixel, Set_Rect]; exact hrect, ?_⟩
    intro x y hy hx
    simp only [renderPixel]
    rw [RGBAAt_Set _ hwf]
    have hin : s.img.Rect.Contains (s.next y0 : Int) (y0 : Int) = true := by
      rw [hrect, main_Contains]
      omega
    by_cases hsame : (x : Int) = (s.next y0 : Int) ∧ (y : Int) = (y0 : Int)
    · obtain ⟨e1, e2⟩ := hsame
      rw [if_pos ⟨e1, e2, hin⟩, e1, e2]
      rfl
    · rw [if_neg (fun hc => hsame ⟨hc.1, hc.2.1⟩)]
      apply hpix x y hy
      simp only at hx
      by_cases hyy : y = y0
      · subst hyy
        rw [Function.update_same] at hx
        have : x ≠ s.next y := fun e => hsame ⟨by rw [e], rfl⟩
        omega
      · rw [Function.update_noteq hyy] at hx
        exact hx
  · exact ⟨hwf, hrect, hpix⟩

theorem RenderInv_run (A : Arith) (sched : List Nat) :
    ∀ s, RenderInv A s → RenderInv A (run A sched s) := by
  induction sched with
  | nil => intro s h; exact h
  | cons y t ih =>
    intro s h
    exact ih _ (RenderInv_step A s h y)

/-- After a finished execution every pixel of the image holds its final colour. -/
theorem run_pixels (A : Arith) (sched : List Nat) (hfin : finished (run A sched initState))
    (x y : Nat) (hx : x < width) (hy : y < height) :
    (run A sched initState).img.RGBAAt (x : Int) (y : Int)
      = rgbaModel (pixelColor A (x : Int) (y : Int)) := by
  obtain ⟨-, -, hpix⟩ := RenderInv_run A sched initState (RenderInv_init A)
  exact hpix x y hy (by rw [hfin y hy]; exact hx)


theorem run_cons (A : Arith) (y : Nat) (t : List Nat) (s : RenderState) :
    run A (y :: t) s = run A t (stepRow A s y) := rfl

theorem stepRow_next (A : Arith) (s : RenderState) (y0 y : Nat) :
    (stepRow A s y0).next y
      = if y = y0 ∧ y0 < height ∧ s.next y0 < width then s.next y + 1 else s.next y := by
  unfold stepRow
  by_cases h : y0 < height ∧ s.next y0 < width
  · rw [if_pos h]
    by_cases hy : y = y0
    · subst hy
      simp [h]
    · simp [hy, Function.update_noteq hy]
  · rw [if_neg h]
    rw [if_neg (fun hc => h hc.2)]

/-- The loop counter of a row task after an execution: the number of steps that the schedule
gave to the task, up to `width`. -/
theorem run_next (A : Arith) (sched : List Nat) :
    ∀ (s : RenderState) (y : Nat), y < height → s.next y ≤ width →
      (run A sched s).next y = min width (s.next y + sched.count y) := by
  induction sched with
  | nil =>
    intro s y _ hle
    simp [run, Nat.min_eq_right hle]
  | cons y0 t ih =>
    intro s y hy hle
    rw [run_cons]
    have hstep := stepRow_next A s y0 y
    have hle' : (stepRow A s y0).next y ≤ width := by
      rw [hstep]
      split
      · rename_i hc
        obtain ⟨rfl, -, hlt⟩ := hc
        omega
      · exact hle
    rw [ih (stepRow A s y0) y hy hle', hstep, List.count_cons]
    by_cases e : y0 = y
    · subst e
      simp only [beq_self_eq_true, if_true, true_and, hy]
      split <;> omega
    · have e' : ¬ y = y0 := fun h => e h.symm
      simp [e, e']

theorem finished_iff_count (A : Arith) (sched : List Nat) :
    finished (run A sched initState) ↔ ∀ y, y < height → width ≤ sched.count y := by
  unfold finished
  constructor
  · intro h y hy
    have := h y hy
    rw [run_next A sched initState y hy (Nat.zero_le _)] at this
    simp only [initState, Nat.zero_add] at this
    omega
  · intro h y hy
    rw [run_next A sched initState y hy (Nat.zero_le _)]
    simp only [initState, Nat.zero_add]
    have := h y hy
    omega

theorem count_rows (w : Nat) (y : Nat) :
    ∀ n, ((List.range n).flatMap (fun r => List.replicate w r)).count y
      = if y < n then w else 0 := by
  intro n
  induction n with
  | zero => simp
  | succ n ih =>
    rw [List.range_succ, List.flatMap_append, List.count_append, ih]
    simp only [List.flatMap_cons, List.flatMap_nil, List.append_nil, List.count_replicate,
      beq_iff_eq]
    by_cases h1 : y < n
    · have : ¬ n = y := by omega
      simp [h1, this, show y < n + 1 by omega]
    · by_cases h2 : n = y
      · simp [h1, h2]
      · simp [h1, h2, show ¬ y < n + 1 by omega]

theorem finished_seqSched (A : Arith) : finished (run A seqSched initState) := by
  rw [finished_iff_count]
  intro y hy
  rw [seqSched, count_rows, if_pos hy]


theorem run_append (A : Arith) (l l' : List Nat) (s : RenderState) :
    run A (l ++ l') s = run A l' (run A l s) := by
  simp [run, List.foldl_append]

/-- The task of row `y`, given `n` steps in a row from loop counter `k`, runs the iterations
`k`, ..., `k + n - 1` of the loop of `renderRow(img, y)`. -/
theorem run_replicate (A : Arith) (y : Nat) (hy : y < height) :
    ∀ (n k : Nat) (s : RenderState), s.next y = k → k + n ≤ width →
      (run A (List.replicate n y) s).img
          = (List.range' k n).foldl (fun im (x : Nat) => renderPixel A im (x : Int) (y : Int)) s.img
        ∧ (run A (List.replicate n y) s).next = Function.update s.next y (k + n) := by
  intro n
  induction n with
  | zero =>
    intro k s hk _
    refine ⟨rfl, ?_⟩
    simp only [List.replicate, run, List.foldl_nil, Nat.add_zero]
    rw [← hk, Function.update_eq_self]
  | succ n ih =>
    intro k s hk hle
    have hstep : stepRow A s y
        = ⟨renderPixel A s.img (k : Int) (y : Int), Function.update s.next y (k + 1)⟩ := by
      unfold stepRow
      rw [if_pos ⟨hy, by omega⟩, hk]
    obtain ⟨h1, h2⟩ := ih (k + 1) (stepRow A s y) (by rw [hstep]; simp) (by omega)
    rw [List.replicate_succ, run_cons]
    refine ⟨?_, ?_⟩
    · rw [h1, hstep]
      rfl
    · rw [h2, hstep]
      simp only [Function.update_idem]
      rw [show k + 1 + n = k + (n + 1) by omega]

/-- A whole row task, run without interruption, is a call of `renderRow`. -/
theorem run_row (A : Arith) (y : Nat) (hy : y < height) (s : RenderState) (h0 : s.next y = 0) :
    (run A (List.replicate width y) s).img = renderRow A s.img (y : Int)
      ∧ (run A (List.replicate width y) s).next = Function.update s.next y width := by
  have h := run_replicate A y hy width 0 s h0 (by omega)
  rw [Nat.zero_add] at h
  refine ⟨?_, h.2⟩
  rw [h.1, renderRow, List.range_eq_range']

theorem run_rows (A : Arith) (rows : List Nat) :
    ∀ s : RenderState, rows.Nodup → (∀ y, y ∈ rows → y < height ∧ s.next y = 0) →
      (run A (rows.flatMap (fun y => List.replicate width y)) s).img
        = rows.foldl (fun im (y : Nat) => renderRow A im (y : Int)) s.img := by
  induction rows with
  | nil => intro s _ _; rfl
  | cons y t ih =>
    intro s hnd h
    obtain ⟨hy, h0⟩ := h y (List.mem_cons_self y t)
    obtain ⟨himg, hnext⟩ := run_row A y hy s h0
    rw [List.flatMap_cons, run_append, List.foldl_cons, ← himg]
    apply ih _ (List.nodup_cons.mp hnd).2
    intro y' hy'
    have hne : y' ≠ y := fun e => (List.nodup_cons.mp hnd).1 (e ▸ hy')
    refine ⟨(h y' (List.mem_cons_of_mem y hy')).1, ?_⟩
    rw [hnext, Function.update_noteq hne]
    exact (h y' (List.mem_cons_of_mem y hy')).2

/-- The sequential schedule computes what `renderRow` computes when it is called for the rows
`0`, ..., `height - 1` one after the other. -/
theorem run_seqSched (A : Arith) :
    (run A seqSched initState).img
      = (List.range height).foldl (fun im (y : Nat) => renderRow A im (y : Int))
          (NewRGBA (Rect 0 0 width height)) := by
  have h := run_rows A (List.range height) initState (List.nodup_range height)
    (fun y hy => ⟨List.mem_range.mp hy, rfl⟩)
  exact h

/-- The pixels of the buffer after `renderRow` has been called for the rows `rows`. -/
theorem RGBAAt_rows (A : Arith) (img : Image) (hwf : img.WF) (rows : List Nat) (x y : Int) :
    (rows.foldl (fun im (r : Nat) => renderRow A im (r : Int)) img).RGBAAt x y =
      if ((∃ r, r ∈ rows ∧ y = (r : Int)) ∧ 0 ≤ x ∧ x < width) ∧ img.Rect.Contains x y = true
      then rgbaModel (pixelColor A x y) else img.RGBAAt x y := by
  rw [foldl_renderRow_eq_paint, RGBAAt_paint _ _ hwf]
  simp only [mem_rows_ops]

theorem RGBAAt_renderRow (A : Arith) (img : Image) (hwf : img.WF) (r : Int) (x y : Int) :
    (renderRow A img r).RGBAAt x y =
      if (y = r ∧ 0 ≤ x ∧ x < width) ∧ img.Rect.Contains x y = true
      then rgbaModel (pixelColor A x y) else img.RGBAAt x y := by
  rw [renderRow_eq_paint, RGBAAt_paint _ _ hwf]
  simp only [mem_rowOps]


theorem stepRow_mono (A : Arith) (s : RenderState) (y0 y : Nat) :
    s.next y ≤ (stepRow A s y0).next y := by
  rw [stepRow_next]
  split <;> omega

theorem run_mono (A : Arith) (sched : List Nat) :
    ∀ (s : RenderState) (y : Nat), s.next y ≤ (run A sched s).next y := by
  induction sched with
  | nil => intro s y; exact le_refl _
  | cons y0 t ih =>
    intro s y
    rw [run_cons]
    exact le_trans (stepRow_mono A s y0 y) (ih _ y)

/-- The buffer after an execution is the buffer before it with the pixels written that lie
between the old and the new loop counter of their row. -/
theorem run_img_paint (A : Arith) (sched : List Nat) :
    ∀ s : RenderState, ∃ ops : List (Int × Int),
      (run A sched s).img = paint (pixelColor A) s.img ops ∧
      ∀ q : Int × Int, q ∈ ops ↔
        ∃ x y : Nat, y < height ∧ s.next y ≤ x ∧ x < (run A sched s).next y
          ∧ q = ((x : Int), (y : Int)) := by
  induction sched with
  | nil =>
    intro s
    refine ⟨[], rfl, ?_⟩
    intro q
    simp only [List.not_mem_nil, false_iff, run, List.foldl_nil]
    rintro ⟨x, y, -, h1, h2, -⟩
    omega
  | cons y0 t ih =>
    intro s
    obtain ⟨ops, himg, hmem⟩ := ih (stepRow A s y0)
    rw [run_cons]
    by_cases hact : y0 < height ∧ s.next y0 < width
    · have hstep : stepRow A s y0
          = ⟨renderPixel A s.img (s.next y0 : Int) (y0 : Int),
              Function.update s.next y0 (s.next y0 + 1)⟩ := by
        unfold stepRow
        rw [if_pos hact]
      refine ⟨((s.next y0 : Int), (y0 : Int)) :: ops, ?_, ?_⟩
      · rw [himg, hstep]
        rfl
      · intro q
        rw [List.mem_cons, hmem]
        constructor
        · rintro (rfl | ⟨x, y, hy, h1, h2, rfl⟩)
          · refine ⟨s.next y0, y0, hact.1, le_refl _, ?_, rfl⟩
            have := run_mono A t (stepRow A s y0) y0
            rw [hstep] at this ⊢
            simp only [Function.update_same] at this
            omega
          · exact ⟨x, y, hy, le_trans (stepRow_mono A s y0 y) h1, h2, rfl⟩
        · rintro ⟨x, y, hy, h1, h2, rfl⟩
          by_cases hhead : x = s.next y0 ∧ y = y0
          · left
            rw [hhead.1, hhead.2]
          · right
            refine ⟨x, y, hy, ?_, h2, rfl⟩
            rw [stepRow_next]
            split
            · rename_i hc
              obtain ⟨rfl, -, -⟩ := hc
              have : x ≠ s.next y := fun e => hhead ⟨e, rfl⟩
              omega
            · exact h1
    · have hstep : stepRow A s y0 = s := by
        unfold stepRow
        rw [if_neg hact]
      rw [hstep] at himg hmem ⊢
      exact ⟨ops, himg, hmem⟩

/-- The buffer that a finished execution leaves does not depend on the schedule. -/
theorem finished_img_unique (A : Arith) (sched sched' : List Nat)
    (h : finished (run A sched initState)) (h' : finished (run A sched' initState)) :
    (run A sched initState).img = (run A sched' initState).img := by
  obtain ⟨ops, himg, hmem⟩ := run_img_paint A sched initState
  obtain ⟨ops', himg', hmem'⟩ := run_img_paint A sched' initState
  rw [himg, himg']
  apply paint_ext _ _ main_img_WF
  intro q
  rw [hmem, hmem']
  constructor
  · rintro ⟨x, y, hy, h1, h2, rfl⟩
    exact ⟨x, y, hy, h1, by rw [h' y hy]; rw [h y hy] at h2; exact h2, rfl⟩
  · rintro ⟨x, y, hy, h1, h2, rfl⟩
    exact ⟨x, y, hy, h1, by rw [h y hy]; rw [h' y hy] at h2; exact h2, rfl⟩

/-! ## Iteration results and colours -/

theorem iterationsLoop_escaped (A : Arith) (c : A.C) :
    ∀ (n i : Nat), iterationsLoop A c n i (orbit A c i) < i + n →
      A.absGt2 (orbit A c (iterationsLoop A c n i (orbit A c i))) = true := by
  intro n
  induction n with
  | zero =>
    intro i h
    simp [iterationsLoop] at h
  | succ n ih =>
    intro i h
    simp only [iterationsLoop] at h ⊢
    by_cases hz : A.absGt2 (orbit A c i) = true
    · simp only [hz, if_true]
    · rw [Bool.not_eq_true] at hz
      simp only [hz, Bool.false_eq_true, if_false] at h ⊢
      exact ih (i + 1) (by simp only [orbit]; omega)

theorem iterations_escaped (A : Arith) (c : A.C) (h : iterations A c < maxIter) :
    A.absGt2 (orbit A c (iterations A c)) = true :=
  iterationsLoop_escaped A c maxIter 0 (by simpa [iterations, orbit] using h)

theorem iterations_lt_of_ne_Black (A : Arith) (c : A.C) (h : mandelbrot A c ≠ Black) :
    iterations A c < maxIter := by
  by_contra hcon
  exact h (by rw [mandelbrot_eq_resultColor]; exact resultColor_ge _ (Nat.le_of_not_lt hcon))

theorem image_resultColor : Finset.image resultColor (Finset.range (maxIter + 1))
    = insert Black (Finset.image Color.Gray (Finset.range 256)) := by
  ext c
  simp only [Finset.mem_image, Finset.mem_range, Finset.mem_insert]
  constructor
  · rintro ⟨i, hi, rfl⟩
    by_cases h : i < maxIter
    · right
      exact ⟨255 - i % 256, by omega, (resultColor_lt i h).symm⟩
    · left
      exact resultColor_ge i (by omega)
  · rintro (rfl | ⟨k, hk, rfl⟩)
    · exact ⟨maxIter, by omega, resultColor_ge _ (le_refl _)⟩
    · refine ⟨255 - k, by simp [maxIter]; omega, ?_⟩
      rw [resultColor_lt _ (by simp [maxIter]; omega)]
      congr 1
      omega

theorem card_resultColor :
    (Finset.image resultColor (Finset.range (maxIter + 1))).card = 257 := by
  rw [image_resultColor, Finset.card_insert_of_not_mem, Finset.card_image_of_injective]
  · simp
  · intro a b h
    exact Color.Gray.inj h
  · simp [Black]

theorem image_storedColor : Finset.image storedColor (Finset.range (maxIter + 1))
    = Finset.image (fun k => (⟨k, k, k, 255⟩ : RGBA)) (Finset.range 256) := by
  ext c
  simp only [Finset.mem_image, Finset.mem_range]
  constructor
  · rintro ⟨i, hi, rfl⟩
    by_cases h : i < maxIter
    · exact ⟨255 - i % 256, by omega, (storedColor_lt i h).symm⟩
    · exact ⟨0, by omega, (storedColor_ge i (by omega)).symm⟩
  · rintro ⟨k, hk, rfl⟩
    refine ⟨255 - k, by simp [maxIter]; omega, ?_⟩
    rw [storedColor_lt _ (by simp [maxIter]; omega)]
    have : 255 - (255 - k) % 256 = k := by omega
    rw [this]

theorem card_storedColor :
    (Finset.image storedColor (Finset.range (maxIter + 1))).card = 256 := by
  rw [image_storedColor, Finset.card_image_of_injective]
  · simp
  · intro a b h
    simp only [RGBA.mk.injEq] at h
    exact h.1

theorem storedColor_eq_bounded_iff (i : Nat) (h : i < maxIter) :
    storedColor i = storedColor maxIter ↔ i % 256 = 255 := by
  rw [storedColor_lt i h, storedColor_ge maxIter (le_refl _)]
  simp only [RGBA.mk.injEq, and_true, and_self]
  omega

theorem resultColor_ne_bounded (i : Nat) (h : i < maxIter) :
    resultColor i ≠ resultColor maxIter := by
  rw [resultColor_lt i h, resultColor_ge maxIter (le_refl _)]
  simp [Black]


/-! ## Pixels of the image in exact arithmetic -/

section ExactPixels

variable {K : Type} [LinearOrderedField K]

theorem exact_coord (x y : Int) :
    coord (exact K) x y
      = ((x : K) / 3840 * 4 + (-2), (y : K) / 2160 * 4 + (-2)) := by
  simp [coord, exact, width, height, xmin, xmax, ymin, ymax]

theorem exact_coord_centre : coord (exact K) 1920 1080 = ((0 : K), (0 : K)) := by
  rw [exact_coord]
  congr 1 <;> norm_num

theorem exact_mandelbrot_zero :
    iterations (exact K) ((0 : K), (0 : K)) = maxIter
      ∧ mandelbrot (exact K) ((0 : K), (0 : K)) = Black :=
  mandelbrot_of_fixed (exact K) ((0 : K), (0 : K)) exact_zero_fixed exact_zero_bounded

end ExactPixels

theorem main_Contains_nat (x y : Nat) (hx : x < width) (hy : y < height) :
    (Rect 0 0 width height).Contains (x : Int) (y : Int) = true := by
  rw [main_Contains]
  omega

/-- The pixel `(x, y)` of the image of `main` after `renderRow` has run for row `y`. -/
theorem main_renderRow_pixel (A : Arith) (x y : Nat) (hx : x < width) (hy : y < height) :
    (renderRow A (NewRGBA (Rect 0 0 width height)) (y : Int)).RGBAAt (x : Int) (y : Int)
      = rgbaModel (pixelColor A (x : Int) (y : Int)) := by
  rw [RGBAAt_renderRow _ _ main_img_WF, if_pos]
  exact ⟨⟨rfl, by omega, by omega⟩, main_Contains_nat x y hx hy⟩

/-! ## The arithmetic of `float64` at the points of the claims -/

set_option maxRecDepth 100000 in
set_option exponentiation.threshold 10000 in
theorem float64_zero_fixed :
    float64.cadd
        (float64.cmul (float64.complex (float64.ofInt 0) (float64.ofInt 0))
          (float64.complex (float64.ofInt 0) (float64.ofInt 0)))
        (float64.complex (float64.ofInt 0) (float64.ofInt 0))
      = float64.complex (float64.ofInt 0) (float64.ofInt 0) := by
  decide

set_option maxRecDepth 100000 in
set_option exponentiation.threshold 10000 in
theorem float64_zero_bounded :
    float64.absGt2 (float64.complex (float64.ofInt 0) (float64.ofInt 0)) = false := by
  decide

set_option maxRecDepth 100000 in
set_option exponentiation.threshold 10000 in
theorem float64_coord_centre :
    coord float64 1920 1080 = float64.complex (float64.ofInt 0) (float64.ofInt 0)
      ∧ float64.complex (float64.ofInt 0) (float64.ofInt 0)
          = (F64.fin false 0 (-1074), F64.fin false 0 (-1074)) := by
  decide

set_option maxRecDepth 100000 in
set_option exponentiation.threshold 10000 in
theorem float64_coord_corner :
    coord float64 0 0 = (F64.fin true (2 ^ 52) (-51), F64.fin true (2 ^ 52) (-51))
      ∧ float64.absGt2 (coord float64 0 0) = true := by
  decide

set_option maxRecDepth 100000 in
set_option exponentiation.threshold 10000 in
theorem float64_near_two :
    float64.absGt2 (F64.fin false (2 ^ 52) (-51), F64.fin false (2 ^ 52) (-82)) = false
      ∧ iterations float64 (F64.fin false (2 ^ 52) (-51), F64.fin false (2 ^ 52) (-82)) = 1
      ∧ mandelbrot float64 (F64.fin false (2 ^ 52) (-51), F64.fin false (2 ^ 52) (-82))
          = Color.Gray 254 := by
  decide

set_option maxRecDepth 100000 in
set_option exponentiation.threshold 10000 in
theorem float64_pixel_3072_1944 :
    coord float64 3072 1944
        = (F64.fin false 5404319552844596 (-52), F64.fin false 7205759403792794 (-52))
      ∧ float64.absGt2 (coord float64 3072 1944) = false
      ∧ iterations float64 (coord float64 3072 1944) = 1
      ∧ mandelbrot float64 (coord float64 3072 1944) = Color.Gray 254 := by
  decide

set_option maxRecDepth 100000 in
set_option exponentiation.threshold 10000 in
theorem float64_orbit_three :
    (∀ k, k < 12 → float64.absGt2 (orbit float64 (F64.ofInt 3, F64.ofInt 0) k) = true)
      ∧ orbit float64 (F64.ofInt 3, F64.ofInt 0) 10 = (F64.inf false, F64.fin false 0 (-1074))
      ∧ orbit float64 (F64.ofInt 3, F64.ofInt 0) 11 = (F64.inf false, F64.nan)
      ∧ orbit float64 (F64.ofInt 3, F64.ofInt 0) 12 = (F64.nan, F64.nan)
      ∧ float64.absGt2 (orbit float64 (F64.ofInt 3, F64.ofInt 0) 12) = false
      ∧ float64.absGt2 (orbit float64 (F64.ofInt 3, F64.ofInt 0) 13) = false := by
  decide

set_option maxRecDepth 100000 in
set_option exponentiation.threshold 10000 in
/-- The coordinate of pixel `(1, 1)` in `float64`: both parts are rounded. -/
theorem float64_coord_one_one :
    coord float64 1 1
      = (F64.fin true 9002508005129148 (-52), F64.fin true 8998859255431047 (-52)) := by
  decide

theorem iterations_eq_zero_iff (A : Arith) (c : A.C) :
    iterations A c = 0 ↔ A.absGt2 c = true := by
  constructor
  · intro h
    have hesc := iterations_escaped A c (by rw [h]; decide)
    rw [h] at hesc
    exact hesc
  · intro h
    exact (mandelbrot_escapes_at_zero A c h).1

theorem corner_modulus :
    (4 : ℚ) < (F64.fin true (2 ^ 52) (-51)).toRat * (F64.fin true (2 ^ 52) (-51)).toRat
      + (F64.fin true (2 ^ 52) (-51)).toRat * (F64.fin true (2 ^ 52) (-51)).toRat := by
  norm_num [F64.toRat]

theorem toRat_two : (F64.fin false (2 ^ 52) (-51)).toRat = 2 := by
  norm_num [F64.toRat]

theorem toRat_neg_two : (F64.fin true (2 ^ 52) (-51)).toRat = -2 := by
  norm_num [F64.toRat]

theorem toRat_small : (F64.fin false (2 ^ 52) (-82)).toRat = 1 / 2 ^ 30 := by
  norm_num [F64.toRat]

theorem toRat_zero : (F64.fin false 0 (-1074)).toRat = 0 := by
  norm_num [F64.toRat]

theorem toRat_three : (F64.ofInt 3).toRat = 3 ∧ (F64.ofInt 0).toRat = 0 := by
  have h : F64.ofInt 3 = F64.fin false (3 * 2 ^ 51) (-51) := by decide
  have h0 : F64.ofInt 0 = F64.fin false 0 (-1074) := by decide
  rw [h, h0]
  norm_num [F64.toRat]

theorem near_two_modulus :
    (4 : ℚ) < (F64.fin false (2 ^ 52) (-51)).toRat * (F64.fin false (2 ^ 52) (-51)).toRat
      + (F64.fin false (2 ^ 52) (-82)).toRat * (F64.fin false (2 ^ 52) (-82)).toRat := by
  rw [toRat_two, toRat_small]
  norm_num

theorem pixel_3072_1944_modulus :
    (4 : ℚ) < (F64.fin false 5404319552844596 (-52)).toRat
          * (F64.fin false 5404319552844596 (-52)).toRat
      + (F64.fin false 7205759403792794 (-52)).toRat
          * (F64.fin false 7205759403792794 (-52)).toRat := by
  norm_num [F64.toRat]

theorem float64_mandelbrot_zero :
    iterations float64 (float64.complex (float64.ofInt 0) (float64.ofInt 0)) = maxIter
      ∧ mandelbrot float64 (float64.complex (float64.ofInt 0) (float64.ofInt 0)) = Black :=
  mandelbrot_of_fixed float64 _ float64_zero_fixed float64_zero_bounded

/-- Below the iteration result of `mandelbrot(c)` the escape test fails. -/
theorem iterationsLoop_minimal (A : Arith) (c : A.C) :
    ∀ (n i j : Nat), i ≤ j → j < iterationsLoop A c n i (orbit A c i) →
      A.absGt2 (orbit A c j) = false := by
  intro n
  induction n with
  | zero =>
    intro i j hij hj
    simp only [iterationsLoop] at hj
    omega
  | succ n ih =>
    intro i j hij hj
    simp only [iterationsLoop] at hj
    by_cases hz : A.absGt2 (orbit A c i) = true
    · simp only [hz, if_true] at hj
      omega
    · rw [Bool.not_eq_true] at hz
      simp only [hz, Bool.false_eq_true, if_false] at hj
      by_cases e : j = i
      · rw [e]
        exact hz
      · exact ih (i + 1) j (by omega) (by simpa only [orbit] using hj)

theorem iterations_minimal (A : Arith) (c : A.C) (j : Nat) (hj : j < iterations A c) :
    A.absGt2 (orbit A c j) = false :=
  iterationsLoop_minimal A c maxIter 0 j (Nat.zero_le j) (by simpa [iterations, orbit] using hj)

theorem mandelbrot_Black_iff (A : Arith) (c : A.C) :
    mandelbrot A c = Black ↔ ∀ k, k < maxIter → A.absGt2 (orbit A c k) = false := by
  constructor
  · intro h k hk
    have hi : iterations A c = maxIter := by
      by_contra hne
      have hlt : iterations A c < maxIter := lt_of_le_of_ne (iterations_le A c) hne
      rw [mandelbrot_eq_resultColor, resultColor_lt _ hlt] at h
      simp [Black] at h
    exact iterations_minimal A c k (by rw [hi]; exact hk)
  · intro hall
    rw [mandelbrot_eq_resultColor, iterations_of_no_escape A c hall]
    exact resultColor_ge _ (le_refl _)

/-! ## The claims -/

/-- C1: `mandelbrot(c)` returns `color.Gray{uint8(255 - n%256)}` for the least index
`n < maxIter = 1000` with `|z_n| > 2` in the sequence `z_0 = c`, `z_(k+1) = z_k^2 + c`, where
`255 - n%256` lies in `0..255` so that the conversion to `uint8` keeps its value, and it
returns `color.Black` when no index below `maxIter` has `|z_i| > 2`. -/
theorem mandelbrot_first_escape (A : Arith) (c : A.C) :
    maxIter = 1000 ∧
    (∀ n, n < maxIter → A.absGt2 (orbit A c n) = true →
      (∀ j, j < n → A.absGt2 (orbit A c j) = false) →
        mandelbrot A c = Color.Gray (uint8 (255 - (n : Int) % 256))
        ∧ ((uint8 (255 - (n : Int) % 256) : Nat) : Int) = 255 - (n : Int) % 256
        ∧ (0 : Int) ≤ 255 - (n : Int) % 256 ∧ 255 - (n : Int) % 256 ≤ 255
        ∧ uint8 (255 - (n : Int) % 256) = 255 - n % 256) ∧
    ((∀ i, i < maxIter → A.absGt2 (orbit A c i) = false) → mandelbrot A c = Black) := by
  refine ⟨rfl, ?_, ?_⟩
  · intro n hn hesc hmin
    have hi := iterations_of_first_escape A c n hn hesc hmin
    refine ⟨?_, ?_, by omega, by omega, uint8_gray n⟩
    · rw [mandelbrot_eq_resultColor, hi, resultColor_lt n hn, uint8_gray]
    · rw [uint8_gray]
      omega
  · intro hall
    rw [mandelbrot_eq_resultColor, iterations_of_no_escape A c hall]
    exact resultColor_ge _ (le_refl _)

theorem mandelbrot_first_escape_witness :
    mandelbrot (exact ℚ) ((3 : ℚ), (0 : ℚ)) = Color.Gray (uint8 (255 - ((0 : Nat) : Int) % 256))
      ∧ mandelbrot (exact ℚ) ((0 : ℚ), (0 : ℚ)) = Black :=
  ⟨((mandelbrot_first_escape (exact ℚ) ((3 : ℚ), (0 : ℚ))).2.1 0 (by decide)
      (by rw [exact_absGt2_iff]; simp only [orbit]; norm_num)
      (fun j hj => absurd hj (Nat.not_lt_zero j))).1,
    (mandelbrot_first_escape (exact ℚ) ((0 : ℚ), (0 : ℚ))).2.2
      (fun i _ => by rw [orbit_of_fixed _ _ exact_zero_fixed]; exact exact_zero_bounded)⟩

/-- C2: when the render phase of `main` is over (every row task has run its loop to the
end, under any schedule of the tasks, or `renderRow` has been called for all rows in any
order), pixel `(x, y)` with `x < width`, `y < height` holds the colour that `mandelbrot`
returns for the coordinate `complex(float64(x)/3840*4 + -2, float64(y)/2160*4 + -2)`,
converted by `Set` to `color.RGBA`; in exact arithmetic the division is the division of the
field. -/
theorem render_pixels (A : Arith) :
    (∀ sched : List Nat, finished (run A sched initState) →
      ∀ x y : Nat, x < width → y < height →
        (run A sched initState).img.RGBAAt (x : Int) (y : Int)
          = rgbaModel (mandelbrot A (coord A (x : Int) (y : Int)))) ∧
    (∀ rows : List Nat, (∀ y, y < height → y ∈ rows) →
      ∀ x y : Nat, x < width → y < height →
        (rows.foldl (fun im (r : Nat) => renderRow A im (r : Int))
            (NewRGBA (Rect 0 0 width height))).RGBAAt (x : Int) (y : Int)
          = rgbaModel (mandelbrot A (coord A (x : Int) (y : Int)))) ∧
    (∀ x y : Int, coord A x y
      = A.complex
          (A.add (A.mul (A.div (A.ofInt x) (A.ofInt 3840)) (A.ofInt 4)) (A.ofInt (-2)))
          (A.add (A.mul (A.div (A.ofInt y) (A.ofInt 2160)) (A.ofInt 4)) (A.ofInt (-2)))) ∧
    (∀ x y : Int, coord (exact ℚ) x y
      = ((x : ℚ) / 3840 * 4 + (-2), (y : ℚ) / 2160 * 4 + (-2))) := by
  refine ⟨?_, ?_, fun _ _ => rfl, fun x y => exact_coord x y⟩
  · intro sched hfin x y hx hy
    exact run_pixels A sched hfin x y hx hy
  · intro rows hrows x y hx hy
    rw [RGBAAt_rows _ _ main_img_WF, if_pos]
    · rfl
    · exact ⟨⟨⟨y, hrows y hy, rfl⟩, by omega, by omega⟩, main_Contains_nat x y hx hy⟩

theorem render_pixels_witness :
    (run (exact ℚ) seqSched initState).img.RGBAAt ((7 : Nat) : Int) ((5 : Nat) : Int)
        = rgbaModel (mandelbrot (exact ℚ) (coord (exact ℚ) ((7 : Nat) : Int) ((5 : Nat) : Int)))
      ∧ ((List.range height).foldl (fun im (r : Nat) => renderRow (exact ℚ) im (r : Int))
            (NewRGBA (Rect 0 0 width height))).RGBAAt ((7 : Nat) : Int) ((5 : Nat) : Int)
        = rgbaModel (mandelbrot (exact ℚ) (coord (exact ℚ) ((7 : Nat) : Int) ((5 : Nat) : Int))) :=
  ⟨(render_pixels (exact ℚ)).1 seqSched (finished_seqSched (exact ℚ)) 7 5
      (by decide) (by decide),
    (render_pixels (exact ℚ)).2.1 (List.range height) (fun _ hy => List.mem_range.mpr hy) 7 5
      (by decide) (by decide)⟩

/-- C3: buffer completeness. The buffer that `NewRGBA` allocates holds the zero value
`RGBA{0, 0, 0, 0}` at every pixel; when every row task of `main` has finished, every pixel
`(x, y)` with `x < width`, `y < height` holds the colour computed for it, which is opaque
(`A = 255`) and therefore not the zero value. -/
theorem buffer_complete (A : Arith) :
    (∀ x y : Int, initState.img.RGBAAt x y = ⟨0, 0, 0, 0⟩) ∧
    (∀ sched : List Nat, finished (run A sched initState) →
      ∀ x y : Nat, x < width → y < height →
        (run A sched initState).img.RGBAAt (x : Int) (y : Int)
            = rgbaModel (mandelbrot A (coord A (x : Int) (y : Int)))
          ∧ ((run A sched initState).img.RGBAAt (x : Int) (y : Int)).A = 255
          ∧ (run A sched initState).img.RGBAAt (x : Int) (y : Int) ≠ ⟨0, 0, 0, 0⟩) := by
  refine ⟨fun x y => NewRGBA_RGBAAt _ x y, ?_⟩
  intro sched hfin x y hx hy
  have h := run_pixels A sched hfin x y hx hy
  have hA : ((run A sched initState).img.RGBAAt (x : Int) (y : Int)).A = 255 := by
    rw [h]
    exact pixelColor_opaque A _ _
  refine ⟨h, hA, ?_⟩
  intro hzero
  rw [hzero] at hA
  exact absurd hA (by decide)

theorem buffer_complete_witness :
    finished (run (exact ℚ) seqSched initState)
      ∧ (run (exact ℚ) seqSched initState).img.RGBAAt ((0 : Nat) : Int) ((0 : Nat) : Int)
          ≠ ⟨0, 0, 0, 0⟩ :=
  ⟨finished_seqSched (exact ℚ),
    ((buffer_complete (exact ℚ)).2 seqSched (finished_seqSched (exact ℚ)) 0 0
      (by decide) (by decide)).2.2⟩


/-- C4, as the claim states it, fails in `float64`: the coordinate `2 + 2^-30 i` and the
coordinate of pixel `(3072, 1944)` of the image have a modulus above 2 (the squares of
their parts add up to more than 4), yet `math.Hypot` rounds the modulus to 2, so the test
`cmplx.Abs(c) > 2` fails at iteration 0 and `mandelbrot` returns `color.Gray{254}` at
iteration 1, not the gray of intensity 255. -/
theorem modulus_above_two_escapes_late :
    ((F64.fin false (2 ^ 52) (-51)).toRat = 2
      ∧ (F64.fin false (2 ^ 52) (-82)).toRat = 1 / 2 ^ 30
      ∧ (4 : ℚ) < (F64.fin false (2 ^ 52) (-51)).toRat * (F64.fin false (2 ^ 52) (-51)).toRat
          + (F64.fin false (2 ^ 52) (-82)).toRat * (F64.fin false (2 ^ 52) (-82)).toRat
      ∧ float64.absGt2 (F64.fin false (2 ^ 52) (-51), F64.fin false (2 ^ 52) (-82)) = false
      ∧ iterations float64 (F64.fin false (2 ^ 52) (-51), F64.fin false (2 ^ 52) (-82)) = 1
      ∧ mandelbrot float64 (F64.fin false (2 ^ 52) (-51), F64.fin false (2 ^ 52) (-82))
          = Color.Gray 254
      ∧ mandelbrot float64 (F64.fin false (2 ^ 52) (-51), F64.fin false (2 ^ 52) (-82))
          ≠ Color.Gray 255) ∧
    (coord float64 3072 1944
        = (F64.fin false 5404319552844596 (-52), F64.fin false 7205759403792794 (-52))
      ∧ (4 : ℚ) < (F64.fin false 5404319552844596 (-52)).toRat
            * (F64.fin false 5404319552844596 (-52)).toRat
          + (F64.fin false 7205759403792794 (-52)).toRat
            * (F64.fin false 7205759403792794 (-52)).toRat
      ∧ float64.absGt2 (coord float64 3072 1944) = false
      ∧ iterations float64 (coord float64 3072 1944) = 1
      ∧ mandelbrot float64 (coord float64 3072 1944) = Color.Gray 254
      ∧ mandelbrot float64 (coord float64 3072 1944) ≠ Color.Gray 255) := by
  refine ⟨⟨toRat_two, toRat_small, near_two_modulus, float64_near_two.1, float64_near_two.2.1,
    float64_near_two.2.2, ?_⟩, float64_pixel_3072_1944.1, pixel_3072_1944_modulus,
    float64_pixel_3072_1944.2.1, float64_pixel_3072_1944.2.2.1, float64_pixel_3072_1944.2.2.2,
    ?_⟩
  · rw [float64_near_two.2.2]
    decide
  · rw [float64_pixel_3072_1944.2.2.2]
    decide

/-- C4, amended: for every coordinate `c` on which the test `cmplx.Abs(c) > 2` of the loop
succeeds, that is whose modulus as `math.Hypot` computes it in `float64` exceeds 2,
`mandelbrot(c)` escapes at iteration 0 and returns the gray colour of intensity
`255 - 0%256 = 255`, which is not `color.Black`, also not after the conversion by `Set`;
these are the only coordinates that escape at iteration 0. In `float64` pixel `(0, 0)` maps
to the coordinate `(-2, -2)`, of modulus above 2, on which the test succeeds, so this is
the colour of pixel `(0, 0)`. -/
theorem escape_at_iteration_zero :
    (∀ (A : Arith) (c : A.C), A.absGt2 c = true →
      iterations A c = 0
        ∧ mandelbrot A c = Color.Gray 255
        ∧ uint8 (255 - ((0 : Nat) : Int) % 256) = 255
        ∧ mandelbrot A c ≠ Black
        ∧ rgbaModel (mandelbrot A c) = ⟨255, 255, 255, 255⟩
        ∧ rgbaModel (mandelbrot A c) ≠ rgbaModel Black) ∧
    (∀ (A : Arith) (c : A.C), iterations A c = 0 ↔ A.absGt2 c = true) ∧
    (∀ c : F64 × F64, float64.absGt2 c = F64.lt (F64.ofInt 2) (F64.hypot c.1 c.2)) ∧
    (coord float64 0 0 = (F64.fin true (2 ^ 52) (-51), F64.fin true (2 ^ 52) (-51))
      ∧ (F64.fin true (2 ^ 52) (-51)).toRat = -2
      ∧ (4 : ℚ) < (F64.fin true (2 ^ 52) (-51)).toRat * (F64.fin true (2 ^ 52) (-51)).toRat
          + (F64.fin true (2 ^ 52) (-51)).toRat * (F64.fin true (2 ^ 52) (-51)).toRat
      ∧ float64.absGt2 (coord float64 0 0) = true
      ∧ mandelbrot float64 (coord float64 0 0) = Color.Gray 255
      ∧ (renderRow float64 (NewRGBA (Rect 0 0 width height)) 0).RGBAAt 0 0
          = ⟨255, 255, 255, 255⟩) := by
  have hgen : ∀ (A : Arith) (c : A.C), A.absGt2 c = true →
      iterations A c = 0 ∧ mandelbrot A c = Color.Gray 255 := mandelbrot_escapes_at_zero
  refine ⟨?_, iterations_eq_zero_iff, fun _ => rfl, ?_⟩
  · intro A c h
    obtain ⟨h0, hg⟩ := hgen A c h
    refine ⟨h0, hg, by decide, ?_, ?_, ?_⟩
    · rw [hg]
      decide
    · rw [hg]
      decide
    · rw [hg]
      decide
  · have hesc : float64.absGt2 (coord float64 0 0) = true := float64_coord_corner.2
    refine ⟨float64_coord_corner.1, toRat_neg_two, corner_modulus, hesc, (hgen _ _ hesc).2, ?_⟩
    have h := main_renderRow_pixel float64 0 0 (by decide) (by decide)
    simp only [Nat.cast_zero] at h
    rw [h, pixelColor, (hgen _ _ hesc).2]
    decide

theorem escape_at_iteration_zero_witness :
    float64.absGt2 (coord float64 0 0) = true
      ∧ mandelbrot float64 (coord float64 0 0) = Color.Gray 255
      ∧ (exact ℚ).absGt2 ((3 : ℚ), (0 : ℚ)) = true
      ∧ mandelbrot (exact ℚ) ((3 : ℚ), (0 : ℚ)) = Color.Gray 255 :=
  ⟨float64_coord_corner.2,
    (escape_at_iteration_zero.1 float64 (coord float64 0 0) float64_coord_corner.2).2.1,
    by rw [exact_absGt2_iff]; norm_num,
    (escape_at_iteration_zero.1 (exact ℚ) ((3 : ℚ), (0 : ℚ))
      (by rw [exact_absGt2_iff]; norm_num)).2.1⟩

/-- C5: for `c = 0`, `mandelbrot(c)` returns `color.Black`: in every arithmetic in which
`0*0 + 0 = 0` and `|0| > 2` is false, and so in exact arithmetic, `z` is `0` at every
iteration, the escape test never succeeds, and the loop runs its `maxIter` iterations. -/
theorem zero_is_bounded :
    (∀ A : Arith,
      A.cadd (A.cmul (A.complex (A.ofInt 0) (A.ofInt 0)) (A.complex (A.ofInt 0) (A.ofInt 0)))
          (A.complex (A.ofInt 0) (A.ofInt 0)) = A.complex (A.ofInt 0) (A.ofInt 0) →
      A.absGt2 (A.complex (A.ofInt 0) (A.ofInt 0)) = false →
        (∀ k, orbit A (A.complex (A.ofInt 0) (A.ofInt 0)) k = A.complex (A.ofInt 0) (A.ofInt 0))
        ∧ (∀ k, A.absGt2 (orbit A (A.complex (A.ofInt 0) (A.ofInt 0)) k) = false)
        ∧ iterations A (A.complex (A.ofInt 0) (A.ofInt 0)) = maxIter
        ∧ mandelbrot A (A.complex (A.ofInt 0) (A.ofInt 0)) = Black) ∧
    (∀ (K : Type) [LinearOrderedField K],
      (∀ k, orbit (exact K) ((0 : K), (0 : K)) k = ((0 : K), (0 : K)))
        ∧ (∀ k, (exact K).absGt2 (orbit (exact K) ((0 : K), (0 : K)) k) = false)
        ∧ iterations (exact K) ((0 : K), (0 : K)) = maxIter
        ∧ mandelbrot (exact K) ((0 : K), (0 : K)) = Black) := by
  have hgen : ∀ (A : Arith) (c : A.C), A.cadd (A.cmul c c) c = c → A.absGt2 c = false →
      (∀ k, orbit A c k = c) ∧ (∀ k, A.absGt2 (orbit A c k) = false)
        ∧ iterations A c = maxIter ∧ mandelbrot A c = Black := by
    intro A c hfix hc
    refine ⟨orbit_of_fixed A c hfix, ?_, mandelbrot_of_fixed A c hfix hc⟩
    intro k
    rw [orbit_of_fixed A c hfix]
    exact hc
  constructor
  · intro A hfix hc
    exact hgen A _ hfix hc
  · intro K _
    exact hgen (exact K) ((0 : K), (0 : K)) exact_zero_fixed exact_zero_bounded

theorem zero_is_bounded_witness :
    (exact ℚ).absGt2 ((exact ℚ).complex ((exact ℚ).ofInt 0) ((exact ℚ).ofInt 0)) = false
      ∧ mandelbrot (exact ℚ) ((exact ℚ).complex ((exact ℚ).ofInt 0) ((exact ℚ).ofInt 0))
          = Black :=
  ⟨by simp [exact],
    (zero_is_bounded.1 (exact ℚ) (by simp [exact]) (by simp [exact])).2.2.2⟩

/-- C6, as the claim states it, fails at iteration result 255: an escape at iteration 255
returns `color.Gray{0}`, which `Set` stores as `RGBA{0, 0, 0, 255}`, the very pixel value
stored for `color.Black` in the bounded case; so the stored values are not 257 and the
stored black is not distinct from every stored gray. -/
theorem stored_black_not_reserved :
    (255 < maxIter ∧ resultColor 255 = Color.Gray 0 ∧ resultColor maxIter = Black
      ∧ storedColor 255 = ⟨0, 0, 0, 255⟩ ∧ storedColor maxIter = ⟨0, 0, 0, 255⟩) ∧
    ¬ ((Finset.image storedColor (Finset.range (maxIter + 1))).card = 257
        ∧ ∀ i, i < maxIter → storedColor i ≠ storedColor maxIter) := by
  refine ⟨⟨by decide, by decide, by decide, by decide, by decide⟩, ?_⟩
  rintro ⟨hcard, -⟩
  rw [card_storedColor] at hcard
  exact absurd hcard (by decide)

/-- C6, amended: the mapping from the iteration result to the colour is total; the value
that `mandelbrot` returns takes exactly 257 distinct values, the 256 values
`color.Gray{255 - i%256}` and `color.Black`, which differs from each of them; the pixel
value stored in the buffer takes exactly 256 distinct values, and the value stored for an
escape at iteration `i` equals the one stored for the bounded case exactly when
`i % 256 = 255`. -/
theorem color_mapping :
    (∀ (A : Arith) (c : A.C),
      mandelbrot A c = resultColor (iterations A c) ∧ iterations A c ≤ maxIter) ∧
    (Finset.image resultColor (Finset.range (maxIter + 1))).card = 257 ∧
    (∀ i, i < maxIter →
      resultColor i = Color.Gray (255 - i % 256) ∧ resultColor i ≠ resultColor maxIter) ∧
    resultColor maxIter = Black ∧
    (Finset.image storedColor (Finset.range (maxIter + 1))).card = 256 ∧
    (∀ i, i < maxIter →
      storedColor i = ⟨255 - i % 256, 255 - i % 256, 255 - i % 256, 255⟩
        ∧ (storedColor i = storedColor maxIter ↔ i % 256 = 255)) ∧
    storedColor maxIter = ⟨0, 0, 0, 255⟩ :=
  ⟨fun A c => ⟨mandelbrot_eq_resultColor A c, iterations_le A c⟩,
    card_resultColor,
    fun i h => ⟨resultColor_lt i h, resultColor_ne_bounded i h⟩,
    resultColor_ge _ (le_refl _),
    card_storedColor,
    fun i h => ⟨storedColor_lt i h, storedColor_eq_bounded_iff i h⟩,
    storedColor_ge _ (le_refl _)⟩

theorem color_mapping_witness :
    (511 < maxIter ∧ storedColor 511 = storedColor maxIter)
      ∧ (24 < maxIter ∧ resultColor 24 = Color.Gray (255 - 24 % 256)) :=
  ⟨⟨by decide, ((color_mapping.2.2.2.2.2.1 511 (by decide)).2).mpr (by decide)⟩,
    ⟨by decide, (color_mapping.2.2.1 24 (by decide)).1⟩⟩


/-- C7: for every image buffer that satisfies the layout invariant of `image.RGBA` and every
row index `y` (in particular `0 <= y < height`), `renderRow(img, y)` writes only pixels of
row `y`: every pixel `(x', y')` with `y' != y` has the same value after the call as before
it, every byte of `Pix` outside the pixels of row `y` is unchanged, and so are the bounds,
the stride and the length of the buffer. -/
theorem renderRow_frame (A : Arith) (img : Image) (hwf : img.WF) (y : Int) :
    (∀ x' y' : Int, y' ≠ y → (renderRow A img y).RGBAAt x' y' = img.RGBAAt x' y') ∧
    (∀ k : Nat,
      (∀ x : Int, 0 ≤ x → x < width → img.Rect.Contains x y = true →
        ¬ ((img.PixOffset x y).toNat ≤ k ∧ k < (img.PixOffset x y).toNat + 4)) →
      (renderRow A img y).Pix[k]? = img.Pix[k]?) ∧
    (renderRow A img y).Rect = img.Rect ∧ (renderRow A img y).Stride = img.Stride ∧
    (renderRow A img y).Pix.length = img.Pix.length := by
  refine ⟨?_, ?_, ?_, ?_, ?_⟩
  · intro x' y' hne
    rw [RGBAAt_renderRow _ _ hwf, if_neg]
    rintro ⟨⟨h, -, -⟩, -⟩
    exact hne h
  · intro k hk
    rw [renderRow_eq_paint]
    apply paint_Pix_untouched _ _ hwf
    intro q hq hin
    obtain ⟨h1, h2, h3⟩ := (mem_rowOps y q).mp hq
    have := hk q.1 h2 h3 (by rw [← h1]; exact hin)
    rw [← h1] at this
    exact this
  · rw [renderRow_eq_paint, paint_Rect]
  · rw [renderRow_eq_paint, paint_Stride]
  · rw [renderRow_eq_paint, paint_length]

theorem renderRow_frame_witness :
    (NewRGBA (Rect 0 0 width height)).WF
      ∧ (renderRow (exact ℚ) (NewRGBA (Rect 0 0 width height)) 5).RGBAAt 3 4
          = (NewRGBA (Rect 0 0 width height)).RGBAAt 3 4 :=
  ⟨main_img_WF,
    (renderRow_frame (exact ℚ) (NewRGBA (Rect 0 0 width height)) main_img_WF 5).1 3 4
      (by decide)⟩

/-- C8: partition correctness. On a buffer that satisfies the layout invariant, calling
`renderRow` for the rows of any permutation of `0..height-1` gives the same buffer as
calling it in increasing row order; and every finished execution of the row tasks of
`main`, whatever the schedule of their steps, leaves that same buffer. -/
theorem render_order_independent (A : Arith) :
    (∀ (img : Image), img.WF → ∀ rows : List Nat, rows.Perm (List.range height) →
      rows.foldl (fun im (r : Nat) => renderRow A im (r : Int)) img
        = (List.range height).foldl (fun im (r : Nat) => renderRow A im (r : Int)) img) ∧
    (∀ sched : List Nat, finished (run A sched initState) →
      (run A sched initState).img
        = (List.range height).foldl (fun im (r : Nat) => renderRow A im (r : Int))
            (NewRGBA (Rect 0 0 width height))) := by
  constructor
  · intro img hwf rows hperm
    rw [foldl_renderRow_eq_paint, foldl_renderRow_eq_paint]
    apply paint_ext _ _ hwf
    intro q
    rw [mem_rows_ops, mem_rows_ops]
    constructor
    · rintro ⟨⟨r, hr, h⟩, h2⟩
      exact ⟨⟨r, hperm.mem_iff.mp hr, h⟩, h2⟩
    · rintro ⟨⟨r, hr, h⟩, h2⟩
      exact ⟨⟨r, hperm.mem_iff.mpr hr, h⟩, h2⟩
  · intro sched hfin
    rw [finished_img_unique A sched seqSched hfin (finished_seqSched A)]
    exact run_seqSched A

theorem render_order_independent_witness :
    (NewRGBA (Rect 0 0 width height)).WF
      ∧ (List.range height).reverse.foldl
            (fun im (r : Nat) => renderRow (exact ℚ) im (r : Int))
            (NewRGBA (Rect 0 0 width height))
          = (List.range height).foldl (fun im (r : Nat) => renderRow (exact ℚ) im (r : Int))
              (NewRGBA (Rect 0 0 width height))
      ∧ (run (exact ℚ) seqSched initState).img
          = (List.range height).foldl (fun im (r : Nat) => renderRow (exact ℚ) im (r : Int))
              (NewRGBA (Rect 0 0 width height)) :=
  ⟨main_img_WF,
    (render_order_independent (exact ℚ)).1 (NewRGBA (Rect 0 0 width height)) main_img_WF
      (List.range height).reverse (List.reverse_perm _),
    (render_order_independent (exact ℚ)).2 seqSched (finished_seqSched (exact ℚ))⟩

/-- C9: the centre pixel `(width/2, height/2) = (1920, 1080)` is mapped by the affine
mapping of `renderRow`, computed in `float64`, to exactly the coordinate `(0, 0)` (both
parts are `+0`); `mandelbrot` returns `color.Black` for it after `maxIter` iterations, and
the pixel value stored for it, by `renderRow` and by every finished execution of the row
tasks, is the black `RGBA{0, 0, 0, 255}`. The mapping and the colour are the same in exact
arithmetic. -/
theorem centre_pixel :
    (width / 2 = 1920 ∧ height / 2 = 1080) ∧
    coord float64 1920 1080 = (F64.fin false 0 (-1074), F64.fin false 0 (-1074)) ∧
    (F64.fin false 0 (-1074)).toRat = 0 ∧
    iterations float64 (coord float64 1920 1080) = maxIter ∧
    mandelbrot float64 (coord float64 1920 1080) = Black ∧
    (renderRow float64 (NewRGBA (Rect 0 0 width height)) 1080).RGBAAt 1920 1080
      = ⟨0, 0, 0, 255⟩ ∧
    rgbaModel Black = ⟨0, 0, 0, 255⟩ ∧
    (∀ sched : List Nat, finished (run float64 sched initState) →
      (run float64 sched initState).img.RGBAAt 1920 1080 = ⟨0, 0, 0, 255⟩) ∧
    (∀ (K : Type) [LinearOrderedField K],
      coord (exact K) 1920 1080 = ((0 : K), (0 : K))
        ∧ mandelbrot (exact K) (coord (exact K) 1920 1080) = Black) := by
  have hc : coord float64 1920 1080 = (F64.fin false 0 (-1074), F64.fin false 0 (-1074)) :=
    float64_coord_centre.1.trans float64_coord_centre.2
  have hI : iterations float64 (coord float64 1920 1080) = maxIter := by
    rw [float64_coord_centre.1]
    exact float64_mandelbrot_zero.1
  have hB : mandelbrot float64 (coord float64 1920 1080) = Black := by
    rw [float64_coord_centre.1]
    exact float64_mandelbrot_zero.2
  refine ⟨⟨by decide, by decide⟩, hc, toRat_zero, hI, hB, ?_, rgbaModel_Black, ?_, ?_⟩
  · have h := main_renderRow_pixel float64 1920 1080 (by decide) (by decide)
    simp only [Nat.cast_ofNat] at h
    rw [h, pixelColor, hB]
    exact rgbaModel_Black
  · intro sched hfin
    have h := run_pixels float64 sched hfin 1920 1080 (by decide) (by decide)
    simp only [Nat.cast_ofNat] at h
    rw [h, pixelColor, hB]
    exact rgbaModel_Black
  · intro K _
    refine ⟨exact_coord_centre, ?_⟩
    rw [exact_coord_centre]
    exact exact_mandelbrot_zero.2

theorem centre_pixel_witness :
    finished (run float64 seqSched initState)
      ∧ (run float64 seqSched initState).img.RGBAAt 1920 1080 = ⟨0, 0, 0, 255⟩ :=
  ⟨finished_seqSched float64,
    centre_pixel.2.2.2.2.2.2.2.1 seqSched (finished_seqSched float64)⟩

/-- C10, as the claim states it, fails for the recurrence in `float64` that `mandelbrot`
iterates: for `c = 3` the test `cmplx.Abs(z) > 2` succeeds at the indices 0 to 11, while
the orbit overflows to `+Inf` at index 10, and the test fails at index 12 and at index 13,
where `z` is `NaN + NaN i`; so an orbit that has left the disc of radius 2 (the test at
index 0) does not keep `|z_m| > 2` for every later `m`. -/
theorem float64_orbit_returns :
    ((F64.ofInt 3).toRat = 3 ∧ (F64.ofInt 0).toRat = 0) ∧
    (∀ k, k < 12 → float64.absGt2 (orbit float64 (F64.ofInt 3, F64.ofInt 0) k) = true) ∧
    orbit float64 (F64.ofInt 3, F64.ofInt 0) 10 = (F64.inf false, F64.fin false 0 (-1074)) ∧
    orbit float64 (F64.ofInt 3, F64.ofInt 0) 12 = (F64.nan, F64.nan) ∧
    float64.absGt2 (orbit float64 (F64.ofInt 3, F64.ofInt 0) 12) = false ∧
    float64.absGt2 (orbit float64 (F64.ofInt 3, F64.ofInt 0) 13) = false ∧
    ¬ (∀ n m : Nat, n ≤ m →
        float64.absGt2 (orbit float64 (F64.ofInt 3, F64.ofInt 0) n) = true →
        float64.absGt2 (orbit float64 (F64.ofInt 3, F64.ofInt 0) m) = true) := by
  refine ⟨toRat_three, float64_orbit_three.1, float64_orbit_three.2.1,
    float64_orbit_three.2.2.2.1, float64_orbit_three.2.2.2.2.1,
    float64_orbit_three.2.2.2.2.2, ?_⟩
  intro hall
  have h := hall 0 12 (by decide) (float64_orbit_three.1 0 (by decide))
  rw [float64_orbit_three.2.2.2.2.1] at h
  exact Bool.noConfusion h

/-- C10, amended: the escape radius 2 is sufficient for the recurrence in exact complex
arithmetic: for every complex `c`, with `z_0 = c` and `z_(k+1) = z_k^2 + c`, if `|z_n| > 2`
then `|z_m| > 2` for every `m >= n`. In every arithmetic `mandelbrot` returns at the first
index whose test `|z| > 2` succeeds: it returns `color.Black` exactly when the test fails at
every index below `maxIter`, and when it returns another colour the iteration at which it
returned is the least index whose test succeeds; in exact arithmetic the orbit of such a
point stays outside the disc of radius 2 from that index on. -/
theorem escape_radius_sufficient :
    (∀ (K : Type) [LinearOrderedField K] (c : K × K) (n m : Nat), n ≤ m →
      (exact K).absGt2 (orbit (exact K) c n) = true →
      (exact K).absGt2 (orbit (exact K) c m) = true) ∧
    (∀ (A : Arith) (c : A.C),
      mandelbrot A c = Black ↔ ∀ k, k < maxIter → A.absGt2 (orbit A c k) = false) ∧
    (∀ (A : Arith) (c : A.C), mandelbrot A c ≠ Black →
      iterations A c < maxIter ∧ A.absGt2 (orbit A c (iterations A c)) = true
        ∧ ∀ j, j < iterations A c → A.absGt2 (orbit A c j) = false) ∧
    (∀ (K : Type) [LinearOrderedField K] (c : K × K), mandelbrot (exact K) c ≠ Black →
      ∀ m, iterations (exact K) c ≤ m → (exact K).absGt2 (orbit (exact K) c m) = true) := by
  refine ⟨fun K _ c n m hnm h => exact_escape_forever c n m hnm h,
    fun A c => mandelbrot_Black_iff A c, ?_, ?_⟩
  · intro A c hne
    have hlt := iterations_lt_of_ne_Black A c hne
    exact ⟨hlt, iterations_escaped A c hlt, fun j hj => iterations_minimal A c j hj⟩
  · intro K _ c hne m hm
    have hlt := iterations_lt_of_ne_Black (exact K) c hne
    exact exact_escape_forever c _ m hm (iterations_escaped (exact K) c hlt)

theorem escape_radius_sufficient_witness :
    (exact ℚ).absGt2 (orbit (exact ℚ) ((1 : ℚ), (1 : ℚ)) 1) = true
      ∧ (exact ℚ).absGt2 (orbit (exact ℚ) ((1 : ℚ), (1 : ℚ)) 3) = true :=
  ⟨by rw [exact_absGt2_iff]; simp only [orbit, exact_step]; norm_num,
    escape_radius_sufficient.1 ℚ ((1 : ℚ), (1 : ℚ)) 1 3 (by decide)
      (by rw [exact_absGt2_iff]; simp only [orbit, exact_step]; norm_num)⟩

end Mandel
